import Mathlib

/-!
Verification of the mapping lineage graph engine.

This file gives a shallow embedding of the two core modules:

* `src/XMLify/excel_export/new_style.py` — graph construction
  (`create_basic_lineage_graph`), level assignment
  (`_calculate_transformation_order`, `_calculate_complex_order`,
  `_calculate_longest_path_levels`, `_handle_cyclic_graph`), parallel-group
  partitioning (`_identify_parallel_groups`) and the logic extractor
  (`_extract_logic_by_type`).
* `src/XMLify/fixed_lineage_maker.py` — the backward field-lineage tracer
  (`trace_lineage`, `is_lineage_source`, `get_transformation_logic`,
  `_get_field_datatype`, `build_reverse_graph`).

Python dictionaries are embedded as association lists with first-match
lookup, networkx `DiGraph`s as a record of insertion-ordered node and edge
lists, and the dynamically-typed attribute objects reaching the logic
extractor as a JSON-like value type evaluated in an `Except` monad so that
Python exceptions (`AttributeError`, `TypeError`) are observable values.
Where Python iterates over a `set` (whose order is unspecified), the
embedding iterates in insertion order; every property proved below is
independent of that choice except where a concrete run is evaluated, in
which case the evaluated quantity is itself order-independent.
-/

/-! ## String helpers (Python semantics, executable on character lists)

Core `String` operations such as `String.startsWith` or `String.replace`
do not reduce inside the kernel, so the Python string operations used by
the source are re-implemented on `List Char`. -/

/-- Python `pat in s` (substring containment). -/
def strContains (s pat : String) : Bool :=
  (List.range (s.data.length + 1)).any (fun i => pat.data.isPrefixOf (s.data.drop i))

/-- Python `s.startswith(pat)`. -/
def strStarts (s pat : String) : Bool :=
  pat.data.isPrefixOf s.data

/-- One left-to-right, non-overlapping replacement pass over a character
list, as performed by Python `s.replace(pat, rep)`; `fuel` is the length
of the scanned list. -/
def replaceFuel (pat rep : List Char) : Nat → List Char → List Char
  | 0, l => l
  | _ + 1, [] => []
  | fuel + 1, c :: cs =>
    if pat ≠ [] ∧ pat.isPrefixOf (c :: cs) then
      rep ++ replaceFuel pat rep fuel ((c :: cs).drop pat.length)
    else
      c :: replaceFuel pat rep fuel cs

/-- Python `s.replace(pat, rep)` for a non-empty pattern. -/
def strReplace (s pat rep : String) : String :=
  String.mk (replaceFuel pat.data rep.data s.data.length s.data)

/-- Python `s.upper()`. -/
def strUpper (s : String) : String :=
  String.mk (s.data.map Char.toUpper)

/-- Python `s.lower()`. -/
def strLower (s : String) : String :=
  String.mk (s.data.map Char.toLower)

/-- Python `s.strip()`. -/
def strStrip (s : String) : String :=
  String.mk (((s.data.dropWhile Char.isWhitespace).reverse.dropWhile
    Char.isWhitespace).reverse)

/-- Python `s[:n]` (character prefix). -/
def strTakeChars (s : String) (n : Nat) : String :=
  String.mk (s.data.take n)

/-- Python `len(s)` (character count). -/
def strLen (s : String) : Nat :=
  s.data.length

namespace NewStyle

/-! ## Data model of `new_style.py`

An `INSTANCE` record as used by `create_basic_lineage_graph`
(`@NAME`, `@TRANSFORMATION_TYPE`), and a `CONNECTOR` record
(`@FROMFIELD`, `@FROMINSTANCE`, `@FROMINSTANCETYPE`, `@TOFIELD`,
`@TOINSTANCE`, `@TOINSTANCETYPE`). -/

structure InstanceRec where
  name : String
  transformationType : String
deriving DecidableEq

structure ConnectorRec where
  fromField : String
  fromInstance : String
  fromInstanceType : String
  toField : String
  toInstance : String
  toInstanceType : String
deriving DecidableEq

/-- `create_transform_type_acronym`: maps a transformation type to the
prefix used to qualify node names; unknown types fall through to the type
string itself. -/
def create_transform_type_acronym (transformType : String) : String :=
  if transformType = "Filter" then "FILT_"
  else if transformType = "Target Definition" then "TGT_"
  else if transformType = "Source Definition" then "SRC_"
  else if transformType = "App Multi-Group Source Qualifier" then "SRCQ_"
  else if transformType = "Source Qualifier" then "SRCQ_"
  else if transformType = "XML Source Qualifier" then "XSRCQ_"
  else if transformType = "Custom Transformation" then "CTR_"
  else if transformType = "Aggregator" then "AGGR_"
  else if transformType = "Update Strategy" then "UPD_"
  else if transformType = "Expression" then "EXPR_"
  else if transformType = "Lookup Procedure" then "LOOK_"
  else if transformType = "Sequence" then "SEQ_"
  else transformType

/-- The qualified node name built for a declared instance. -/
def instanceNode (i : InstanceRec) : String :=
  create_transform_type_acronym i.transformationType ++ i.name

/-- The qualified node name of a connector's `FROM` endpoint. -/
def connFromNode (c : ConnectorRec) : String :=
  create_transform_type_acronym c.fromInstanceType ++ c.fromInstance

/-- The qualified node name of a connector's `TO` endpoint. -/
def connToNode (c : ConnectorRec) : String :=
  create_transform_type_acronym c.toInstanceType ++ c.toInstance

/-! ## networkx `DiGraph` embedding

Nodes and edges are kept in insertion order and deduplicated, following
`DiGraph.add_node` / `DiGraph.add_edge` semantics (`add_edge` implicitly
adds missing endpoint nodes). -/

structure Graph where
  nodes : List String
  edges : List (String × String)
deriving DecidableEq

/-- `G.add_node(n)`. -/
def addNode (g : Graph) (n : String) : Graph :=
  if n ∈ g.nodes then g else { g with nodes := g.nodes ++ [n] }

/-- `G.add_edge(u, v)` (adds missing endpoints first; `add_node` leaves
the edge list unchanged, so the deduplication test reads `g.edges`). -/
def addEdge (g : Graph) (u v : String) : Graph :=
  { nodes := (addNode (addNode g u) v).nodes,
    edges := if (u, v) ∈ g.edges then g.edges else g.edges ++ [(u, v)] }

/-- `create_basic_lineage_graph`: one node per declared instance, then one
edge per connector between the acronym-qualified endpoint names. -/
def create_basic_lineage_graph (instances : List InstanceRec)
    (connectors : List ConnectorRec) : Graph :=
  let g0 : Graph := { nodes := [], edges := [] }
  let g1 := instances.foldl (fun g i => addNode g (instanceNode i)) g0
  connectors.foldl (fun g c => addEdge g (connFromNode c) (connToNode c)) g1

theorem mem_nodes_addNode {g : Graph} {m : String} (n : String)
    (h : m ∈ g.nodes) : m ∈ (addNode g n).nodes := by
  unfold addNode
  split
  · exact h
  · exact List.mem_append_left _ h

theorem self_mem_addNode (g : Graph) (n : String) : n ∈ (addNode g n).nodes := by
  unfold addNode
  split
  · assumption
  · exact List.mem_append_right _ (List.mem_singleton.mpr rfl)

theorem mem_nodes_addEdge {g : Graph} {m : String} (u v : String)
    (h : m ∈ g.nodes) : m ∈ (addEdge g u v).nodes :=
  mem_nodes_addNode v (mem_nodes_addNode u h)

theorem left_mem_addEdge (g : Graph) (u v : String) : u ∈ (addEdge g u v).nodes :=
  mem_nodes_addNode v (self_mem_addNode g u)

theorem right_mem_addEdge (g : Graph) (u v : String) : v ∈ (addEdge g u v).nodes :=
  self_mem_addNode (addNode g u) v

theorem mem_nodes_foldl_addEdge {m : String}
    (l : List ConnectorRec) (g : Graph) (h : m ∈ g.nodes) :
    m ∈ (l.foldl (fun g c => addEdge g (connFromNode c) (connToNode c)) g).nodes := by
  induction l generalizing g with
  | nil => exact h
  | cons c cs ih =>
    exact ih _ (mem_nodes_addEdge _ _ h)

theorem mem_nodes_foldl_addNode {m : String}
    (l : List InstanceRec) (g : Graph) (h : m ∈ g.nodes) :
    m ∈ (l.foldl (fun g i => addNode g (instanceNode i)) g).nodes := by
  induction l generalizing g with
  | nil => exact h
  | cons x xs ih => exact ih _ (mem_nodes_addNode _ h)

theorem mem_nodes_foldl_addNode_of_mem {i : InstanceRec}
    (l : List InstanceRec) (g : Graph) (h : i ∈ l) :
    instanceNode i ∈ (l.foldl (fun g i => addNode g (instanceNode i)) g).nodes := by
  induction l generalizing g with
  | nil => cases h
  | cons x xs ih =>
    rcases List.mem_cons.mp h with h1 | h2
    · subst h1
      exact mem_nodes_foldl_addNode xs _ (self_mem_addNode g (instanceNode i))
    · exact ih _ h2

theorem mem_nodes_foldl_addEdge_endpoint {c : ConnectorRec}
    (l : List ConnectorRec) (g : Graph) (h : c ∈ l) :
    connFromNode c ∈ (l.foldl (fun g c => addEdge g (connFromNode c) (connToNode c)) g).nodes ∧
    connToNode c ∈ (l.foldl (fun g c => addEdge g (connFromNode c) (connToNode c)) g).nodes := by
  induction l generalizing g with
  | nil => cases h
  | cons x xs ih =>
    rcases List.mem_cons.mp h with h1 | h2
    · subst h1
      constructor
      · exact mem_nodes_foldl_addEdge xs _ (left_mem_addEdge _ _ _)
      · exact mem_nodes_foldl_addEdge xs _ (right_mem_addEdge _ _ _)
    · exact ih _ h2

/-- C9: every declared instance is a node of the constructed graph, and
both endpoints of every connector — declared or not — are nodes of the
constructed graph (networkx `add_edge` implicitly creates missing
endpoint nodes, so no missing-declaration lookup error can occur). -/
theorem C9_connector_endpoints_exist (instances : List InstanceRec)
    (connectors : List ConnectorRec) :
    (∀ i ∈ instances,
      instanceNode i ∈ (create_basic_lineage_graph instances connectors).nodes) ∧
    (∀ c ∈ connectors,
      connFromNode c ∈ (create_basic_lineage_graph instances connectors).nodes ∧
      connToNode c ∈ (create_basic_lineage_graph instances connectors).nodes) := by
  constructor
  · intro i hi
    exact mem_nodes_foldl_addEdge _ _ (mem_nodes_foldl_addNode_of_mem _ _ hi)
  · intro c hc
    exact mem_nodes_foldl_addEdge_endpoint _ _ hc

/-- Witness for C9: a connector whose `TO` endpoint (`Expression` instance
`B`) is not declared in `INSTANCE`; both endpoints are still nodes. -/
theorem C9_witness :
    "SRC_A" ∈ (create_basic_lineage_graph
        [⟨"A", "Source Definition"⟩]
        [⟨"f", "A", "Source Definition", "g", "B", "Expression"⟩]).nodes ∧
    "EXPR_B" ∈ (create_basic_lineage_graph
        [⟨"A", "Source Definition"⟩]
        [⟨"f", "A", "Source Definition", "g", "B", "Expression"⟩]).nodes := by
  have h := (C9_connector_endpoints_exist
    [⟨"A", "Source Definition"⟩]
    [⟨"f", "A", "Source Definition", "g", "B", "Expression"⟩]).2
    ⟨"f", "A", "Source Definition", "g", "B", "Expression"⟩ (by decide)
  exact h

end NewStyle

namespace NewStyle

/-! ## Degrees and adjacency (networkx `DiGraph` accessors) -/

/-- `G.in_degree(n)`. -/
def inDegree (g : Graph) (n : String) : Nat :=
  (g.edges.filter (fun e => decide (e.2 = n))).length

/-- `G.out_degree(n)`. -/
def outDegree (g : Graph) (n : String) : Nat :=
  (g.edges.filter (fun e => decide (e.1 = n))).length

/-- `G.predecessors(n)`. -/
def predecessors (g : Graph) (n : String) : List String :=
  (g.edges.filter (fun e => decide (e.2 = n))).map Prod.fst

/-- `G.successors(n)`. -/
def successors (g : Graph) (n : String) : List String :=
  (g.edges.filter (fun e => decide (e.1 = n))).map Prod.snd

/-- `G.subgraph(c)`: the induced subgraph, nodes kept in the order of `g`. -/
def subgraphOn (g : Graph) (c : List String) : Graph :=
  { nodes := g.nodes.filter (fun n => decide (n ∈ c)),
    edges := g.edges.filter (fun e => decide (e.1 ∈ c) && decide (e.2 ∈ c)) }

/-! ## Reachability

`nx.has_path` and weak-connectivity are embedded as an iterated saturation
of a frontier set; `Star` is the corresponding inductive reachability
relation, and the two are proved equivalent below. -/

/-- One saturation step: adjoin every node of `pool` adjacent to the
current set. -/
def closureStep (pool : List String) (adj : String → String → Bool)
    (s : List String) : List String :=
  s ++ pool.filter (fun m => decide (m ∉ s) && s.any (fun x => adj x m))

/-- `k`-fold saturation. -/
def closureIter (pool : List String) (adj : String → String → Bool) :
    Nat → List String → List String
  | 0, s => s
  | k + 1, s => closureIter pool adj k (closureStep pool adj s)

/-- All nodes of `pool` reachable from `n` (plus `n` itself). -/
def reachFrom (pool : List String) (adj : String → String → Bool)
    (n : String) : List String :=
  closureIter pool adj (pool.length + 1) [n]

/-- Directed adjacency of a graph. -/
def adjEdge (g : Graph) (x y : String) : Bool :=
  decide ((x, y) ∈ g.edges)

/-- Undirected (symmetrised) adjacency of a graph. -/
def adjSym (g : Graph) (x y : String) : Bool :=
  decide ((x, y) ∈ g.edges) || decide ((y, x) ∈ g.edges)

/-- `nx.has_path(g, u, v)` (true when `u = v`). -/
def hasPath (g : Graph) (u v : String) : Bool :=
  decide (v ∈ reachFrom g.nodes (adjEdge g) u)

/-- Inductive reachability over `adj`, with intermediate targets drawn
from `pool`. -/
inductive Star (pool : List String) (adj : String → String → Bool)
    (n : String) : String → Prop
  | refl : Star pool adj n n
  | tail {x m : String} : Star pool adj n x → adj x m = true → m ∈ pool →
      Star pool adj n m

theorem subset_closureStep (pool : List String) (adj : String → String → Bool)
    (s : List String) : s ⊆ closureStep pool adj s :=
  fun _ h => List.mem_append_left _ h

theorem subset_closureIter (pool : List String) (adj : String → String → Bool)
    (k : Nat) (s : List String) : s ⊆ closureIter pool adj k s := by
  induction k generalizing s with
  | zero => exact fun _ h => h
  | succ k ih =>
    intro x hx
    exact ih (closureStep pool adj s) (subset_closureStep pool adj s hx)

theorem mem_closureStep {pool : List String} {adj : String → String → Bool}
    {s : List String} {m : String} (h : m ∈ closureStep pool adj s) :
    m ∈ s ∨ (m ∈ pool ∧ ∃ x ∈ s, adj x m = true) := by
  rcases List.mem_append.mp h with h1 | h2
  · exact Or.inl h1
  · right
    have h3 := List.mem_filter.mp h2
    have h4 := h3.2
    rw [Bool.and_eq_true] at h4
    refine ⟨h3.1, ?_⟩
    rcases List.any_eq_true.mp h4.2 with ⟨x, hx, hadj⟩
    exact ⟨x, hx, hadj⟩

/-- Soundness of one saturation step with respect to `Star`. -/
theorem closureStep_sound {pool : List String} {adj : String → String → Bool}
    {n : String} {s : List String} (hs : ∀ x ∈ s, Star pool adj n x) :
    ∀ m ∈ closureStep pool adj s, Star pool adj n m := by
  intro m hm
  rcases mem_closureStep hm with h1 | ⟨hp, x, hx, hadj⟩
  · exact hs m h1
  · exact Star.tail (hs x hx) hadj hp

theorem closureIter_sound {pool : List String} {adj : String → String → Bool}
    {n : String} (k : Nat) {s : List String}
    (hs : ∀ x ∈ s, Star pool adj n x) :
    ∀ m ∈ closureIter pool adj k s, Star pool adj n m := by
  induction k generalizing s with
  | zero => exact hs
  | succ k ih => exact ih (closureStep_sound hs)

/-- Every member of `reachFrom` is `Star`-reachable. -/
theorem reachFrom_sound {pool : List String} {adj : String → String → Bool}
    {n m : String} (h : m ∈ reachFrom pool adj n) : Star pool adj n m := by
  refine closureIter_sound _ ?_ m h
  intro x hx
  rcases List.mem_singleton.mp hx with h1
  subst h1
  exact Star.refl

/-- A stable set absorbs adjacency steps into the pool. -/
theorem stable_closed {pool : List String} {adj : String → String → Bool}
    {s : List String} (hst : closureStep pool adj s = s) :
    ∀ x ∈ s, ∀ m, adj x m = true → m ∈ pool → m ∈ s := by
  intro x hx m hadj hp
  by_contra hm
  have h1 : m ∈ closureStep pool adj s := by
    apply List.mem_append_right
    apply List.mem_filter.mpr
    refine ⟨hp, ?_⟩
    rw [Bool.and_eq_true]
    constructor
    · exact decide_eq_true hm
    · exact List.any_eq_true.mpr ⟨x, hx, hadj⟩
  rw [hst] at h1
  exact hm h1

theorem closureIter_of_stable {pool : List String} {adj : String → String → Bool}
    {s : List String} (hst : closureStep pool adj s = s) (k : Nat) :
    closureIter pool adj k s = s := by
  induction k with
  | zero => rfl
  | succ k ih =>
    show closureIter pool adj k (closureStep pool adj s) = s
    rw [hst]
    exact ih

theorem closureIter_add (pool : List String) (adj : String → String → Bool)
    (a b : Nat) (s : List String) :
    closureIter pool adj (a + b) s =
      closureIter pool adj a (closureIter pool adj b s) := by
  induction b generalizing s with
  | zero => rfl
  | succ b ih =>
    show closureIter pool adj (a + b + 1) s = _
    show closureIter pool adj (a + b) (closureStep pool adj s) = _
    rw [ih]
    rfl

theorem closureStep_nodup {pool : List String} {adj : String → String → Bool}
    {s : List String} (hp : pool.Nodup) (hs : s.Nodup) :
    (closureStep pool adj s).Nodup := by
  apply List.Nodup.append hs (List.Nodup.filter _ hp)
  intro x hx hx2
  have h3 := (List.mem_filter.mp hx2).2
  rw [Bool.and_eq_true] at h3
  have h4 := of_decide_eq_true h3.1
  exact h4 hx

theorem closureStep_subset_pool {pool : List String} {adj : String → String → Bool}
    {s s0 : List String} (hs : ∀ x ∈ s, x ∈ s0 ∨ x ∈ pool) :
    ∀ x ∈ closureStep pool adj s, x ∈ s0 ∨ x ∈ pool := by
  intro x hx
  rcases mem_closureStep hx with h1 | ⟨h2, _⟩
  · exact hs x h1
  · exact Or.inr h2

/-- Either saturation has already stabilised within `k` steps, or the set
has grown by at least `k` elements. -/
theorem closureIter_growth {pool : List String} {adj : String → String → Bool}
    (k : Nat) (s : List String) :
    (∃ j, j ≤ k ∧
      closureStep pool adj (closureIter pool adj j s) =
        closureIter pool adj j s) ∨
    s.length + k ≤ (closureIter pool adj k s).length := by
  induction k generalizing s with
  | zero =>
    right
    show s.length + 0 ≤ s.length
    omega
  | succ k ih =>
    by_cases hst : closureStep pool adj s = s
    · exact Or.inl ⟨0, by omega, hst⟩
    · have hlen : s.length + 1 ≤ (closureStep pool adj s).length := by
        unfold closureStep
        rw [List.length_append]
        rcases Nat.eq_zero_or_pos
          (pool.filter (fun m => decide (m ∉ s) && s.any (fun x => adj x m))).length with
          h0 | h0
        · exfalso
          apply hst
          unfold closureStep
          rw [List.length_eq_zero.mp h0]
          exact List.append_nil s
        · omega
      rcases ih (closureStep pool adj s) with ⟨j, hj, hjs⟩ | hgrow
      · left
        exact ⟨j + 1, by omega, hjs⟩
      · right
        show s.length + (k + 1) ≤ (closureIter pool adj k (closureStep pool adj s)).length
        omega

theorem closureIter_mem_pool {pool : List String} {adj : String → String → Bool}
    (k : Nat) {s s0 : List String} (hs : ∀ x ∈ s, x ∈ s0 ∨ x ∈ pool) :
    ∀ x ∈ closureIter pool adj k s, x ∈ s0 ∨ x ∈ pool := by
  induction k generalizing s with
  | zero => exact hs
  | succ k ih => exact ih (closureStep_subset_pool hs)

theorem closureIter_nodup {pool : List String} {adj : String → String → Bool}
    (k : Nat) {s : List String} (hp : pool.Nodup) (hs : s.Nodup) :
    (closureIter pool adj k s).Nodup := by
  induction k generalizing s with
  | zero => exact hs
  | succ k ih => exact ih (closureStep_nodup hp hs)

theorem nodup_subset_length {α : Type} [DecidableEq α] {l L : List α}
    (h : l.Nodup) (hs : ∀ x ∈ l, x ∈ L) : l.length ≤ L.dedup.length := by
  have h1 : l.toFinset.card = l.length := List.toFinset_card_of_nodup h
  have h2 : l.toFinset ⊆ L.toFinset := by
    intro x hx
    simp only [List.mem_toFinset] at *
    exact hs x hx
  have h4 := Finset.card_le_card h2
  have h3 : L.toFinset.card = L.dedup.length := List.card_toFinset L
  omega

/-- Completeness: with `pool.length + 1` iterations from a singleton, the
saturation reaches a stable set, hence contains every `Star`-reachable
node. -/
theorem reachFrom_complete {pool : List String} {adj : String → String → Bool}
    {n m : String} (hp : pool.Nodup) (h : Star pool adj n m) :
    m ∈ reachFrom pool adj n := by
  have hstable : ∃ j, j ≤ pool.length + 1 ∧
      closureStep pool adj (closureIter pool adj j [n]) =
        closureIter pool adj j [n] := by
    rcases closureIter_growth (pool.length + 1) [n] with hgood | hbad
    · exact hgood
    · exfalso
      have hnd : (closureIter pool adj (pool.length + 1) [n]).Nodup :=
        closureIter_nodup _ hp (List.nodup_singleton n)
      have hmem : ∀ x ∈ closureIter pool adj (pool.length + 1) [n],
          x ∈ (n :: pool) := by
        intro x hx
        rcases closureIter_mem_pool (pool.length + 1)
          (fun x hx => Or.inl hx) x hx with h1 | h2
        · rcases List.mem_singleton.mp h1 with h3
          subst h3
          exact List.mem_cons_self _ _
        · exact List.mem_cons_of_mem _ h2
      have hle := nodup_subset_length hnd hmem
      have hdl : (n :: pool).dedup.length ≤ (n :: pool).length :=
        List.Sublist.length_le (List.dedup_sublist _)
      simp only [List.length_singleton, List.length_cons] at *
      omega
  rcases hstable with ⟨j, hj, hjs⟩
  have hsplit : pool.length + 1 = (pool.length + 1 - j) + j := by omega
  have heq : reachFrom pool adj n =
      closureIter pool adj (pool.length + 1 - j) (closureIter pool adj j [n]) := by
    show closureIter pool adj (pool.length + 1) [n] = _
    conv_lhs => rw [hsplit]
    rw [closureIter_add]
  rw [heq, closureIter_of_stable hjs]
  -- every Star-reachable node is in the stable set
  induction h with
  | refl =>
    exact subset_closureIter pool adj j [n] (List.mem_singleton.mpr rfl)
  | tail hstar hadj hpool ih =>
    exact stable_closed hjs _ ih _ hadj hpool

end NewStyle

namespace NewStyle

theorem Star.trans {pool : List String} {adj : String → String → Bool}
    {n x m : String} (h1 : Star pool adj n x) (h2 : Star pool adj x m) :
    Star pool adj n m := by
  induction h2 with
  | refl => exact h1
  | tail _ hadj hpool ih => exact Star.tail ih hadj hpool

theorem Star.eq_or_mem_pool {pool : List String} {adj : String → String → Bool}
    {n m : String} (h : Star pool adj n m) : m = n ∨ m ∈ pool := by
  induction h with
  | refl => exact Or.inl rfl
  | tail _ _ hpool _ => exact Or.inr hpool

theorem adjSym_comm (g : Graph) (x y : String) : adjSym g x y = adjSym g y x := by
  unfold adjSym
  rw [Bool.or_comm]

theorem Star.symm_of_adjSym {g : Graph} {pool : List String} {n m : String}
    (hn : n ∈ pool) (h : Star pool (adjSym g) n m) :
    Star pool (adjSym g) m n := by
  induction h with
  | refl => exact Star.refl
  | tail hstar hadj hpool ih =>
    rename_i x m2
    have hx : x ∈ pool := by
      rcases Star.eq_or_mem_pool hstar with h1 | h2
      · rw [h1]; exact hn
      · exact h2
    have hstep : Star pool (adjSym g) m2 x := by
      apply Star.tail Star.refl _ hx
      rw [adjSym_comm]
      exact hadj
    exact Star.trans hstep ih

/-! ## Kahn topological sort (`nx.topological_sort`)

Returns `none` when a cycle prevents completion, embedding the
`NetworkXUnfeasible` exception. -/

/-- A node with no incoming edge from the still-unprocessed node set. -/
def noIncomingFrom (edges : List (String × String)) (rem : List String)
    (n : String) : Bool :=
  !(edges.any (fun e => decide (e.2 = n) && decide (e.1 ∈ rem)))

def kahnAux (edges : List (String × String)) :
    Nat → List String → List String → Option (List String)
  | 0, rem, acc => if rem.isEmpty then some acc else none
  | fuel + 1, rem, acc =>
    match rem.find? (noIncomingFrom edges rem) with
    | none => if rem.isEmpty then some acc else none
    | some n => kahnAux edges fuel (rem.erase n) (acc ++ [n])

/-- `list(nx.topological_sort(g))`, or `none` on `NetworkXUnfeasible`. -/
def topological_sort (g : Graph) : Option (List String) :=
  kahnAux g.edges g.nodes.length g.nodes []

theorem append_singleton_split {α : Type} {acc p s : List α} {n w : α}
    (h : acc ++ [n] = p ++ w :: s) :
    (p = acc ∧ w = n ∧ s = []) ∨ ∃ s2, acc = p ++ w :: s2 ∧ s = s2 ++ [n] := by
  rcases List.append_eq_append_iff.mp h with ⟨a2, ha1, ha2⟩ | ⟨c2, hc1, hc2⟩
  · -- p = acc ++ a2 and [n] = a2 ++ w :: s
    have hlen : a2.length + (1 + s.length) = 1 := by
      have := congrArg List.length ha2
      simp [List.length_append] at this
      omega
    have ha0 : a2 = [] := List.length_eq_zero.mp (by omega)
    have hs0 : s = [] := List.length_eq_zero.mp (by omega)
    subst ha0; subst hs0
    simp at ha1 ha2
    exact Or.inl ⟨ha1, ha2.symm, rfl⟩
  · -- acc = p ++ c2 and w :: s = c2 ++ [n]
    cases c2 with
    | nil =>
      simp at hc1 hc2
      exact Or.inl ⟨hc1.symm, hc2.1, hc2.2⟩
    | cons w2 c3 =>
      simp at hc2
      rcases hc2 with ⟨hw, hs⟩
      subst hw
      exact Or.inr ⟨c3, hc1, hs⟩

theorem kahnAux_spec (edges : List (String × String)) (univ : List String) :
    ∀ fuel rem acc t,
    kahnAux edges fuel rem acc = some t →
    (∀ x, (x ∈ acc ∨ x ∈ rem) ↔ x ∈ univ) →
    acc.Nodup → rem.Nodup → (∀ x ∈ acc, x ∉ rem) →
    (∀ p w s, acc = p ++ w :: s → ∀ u, (u, w) ∈ edges → u ∈ univ → u ∈ p) →
    (∀ u v, (u, v) ∈ edges → u ∈ rem → v ∉ acc) →
    (∀ x, x ∈ t ↔ x ∈ univ) ∧ t.Nodup ∧
    (∀ p w s, t = p ++ w :: s → ∀ u, (u, w) ∈ edges → u ∈ univ → u ∈ p) := by
  intro fuel
  induction fuel with
  | zero =>
    intro rem acc t ht h1 h2n h3n h4 h5 h6
    unfold kahnAux at ht
    by_cases hre : rem.isEmpty
    · rw [if_pos hre] at ht
      have hteq : t = acc := by
        injection ht with h
        exact h.symm
      subst hteq
      have hre2 : rem = [] := List.isEmpty_iff.mp hre
      subst hre2
      refine ⟨?_, h2n, h5⟩
      intro x
      constructor
      · intro hx
        exact (h1 x).mp (Or.inl hx)
      · intro hx
        rcases (h1 x).mpr hx with h | h
        · exact h
        · cases h
    · rw [if_neg hre] at ht
      cases ht
  | succ fuel ih =>
    intro rem acc t ht h1 h2n h3n h4 h5 h6
    unfold kahnAux at ht
    cases hf : rem.find? (noIncomingFrom edges rem) with
    | none =>
      rw [hf] at ht
      by_cases hre : rem.isEmpty
      · rw [if_pos hre] at ht
        have hteq : t = acc := by
          injection ht with h
          exact h.symm
        subst hteq
        have hre2 : rem = [] := List.isEmpty_iff.mp hre
        subst hre2
        refine ⟨?_, h2n, h5⟩
        intro x
        constructor
        · intro hx
          exact (h1 x).mp (Or.inl hx)
        · intro hx
          rcases (h1 x).mpr hx with h | h
          · exact h
          · cases h
      · rw [if_neg hre] at ht
        cases ht
    | some n =>
      rw [hf] at ht
      have hnrem : n ∈ rem := List.mem_of_find?_eq_some hf
      have hnok : noIncomingFrom edges rem n = true := List.find?_some hf
      have hnacc : n ∉ acc := fun hc => h4 n hc hnrem
      -- no edge into n has its source still in rem
      have hno : ∀ u, (u, n) ∈ edges → u ∉ rem := by
        intro u hu hurem
        unfold noIncomingFrom at hnok
        rw [Bool.not_eq_true', List.any_eq_false] at hnok
        have h2 := hnok (u, n) hu
        simp at h2
        exact h2 hurem
      apply ih (rem.erase n) (acc ++ [n]) t ht
      · -- partition invariant
        intro x
        rw [← h1 x]
        constructor
        · intro hx
          rcases hx with hx | hx
          · rcases List.mem_append.mp hx with hx1 | hx1
            · exact Or.inl hx1
            · rcases List.mem_singleton.mp hx1 with h
              subst h
              exact Or.inr hnrem
          · exact Or.inr (List.mem_of_mem_erase hx)
        · intro hx
          rcases hx with hx | hx
          · exact Or.inl (List.mem_append_left _ hx)
          · by_cases hxn : x = n
            · subst hxn
              exact Or.inl (List.mem_append_right _ (List.mem_singleton.mpr rfl))
            · exact Or.inr ((List.Nodup.mem_erase_iff h3n).mpr ⟨hxn, hx⟩)
      · exact List.Nodup.append h2n (List.nodup_singleton n)
          (by intro x hx hx2; rcases List.mem_singleton.mp hx2 with h; subst h; exact hnacc hx)
      · exact List.Nodup.erase n h3n
      · intro x hx
        rcases List.mem_append.mp hx with hx1 | hx1
        · intro hc
          exact h4 x hx1 (List.mem_of_mem_erase hc)
        · rcases List.mem_singleton.mp hx1 with h
          subst h
          exact List.Nodup.not_mem_erase h3n
      · -- prefix ordering invariant for acc ++ [n]
        intro p w s hsplit u hu huuniv
        rcases append_singleton_split hsplit with ⟨hp, hw, _⟩ | ⟨s2, hacc, _⟩
        · subst hp; subst hw
          rcases (h1 u).mpr huuniv with h | h
          · exact h
          · exact absurd h (hno u hu)
        · exact h5 p w s2 hacc u hu huuniv
      · -- no edge from remaining into emitted
        intro u v huv hurem
        intro hvacc
        rcases List.mem_append.mp hvacc with h | h
        · exact h6 u v huv (List.mem_of_mem_erase hurem) h
        · rcases List.mem_singleton.mp h with hvn
          subst hvn
          exact hno u huv (List.mem_of_mem_erase hurem)

/-- Specification of a successful `topological_sort`: the output enumerates
the node set without repetition, and every edge's source precedes its
target. -/
theorem topological_sort_spec {g : Graph} {t : List String}
    (hnd : g.nodes.Nodup) (ht : topological_sort g = some t) :
    (∀ x, x ∈ t ↔ x ∈ g.nodes) ∧ t.Nodup ∧
    (∀ p w s, t = p ++ w :: s → ∀ u, (u, w) ∈ g.edges → u ∈ g.nodes → u ∈ p) := by
  apply kahnAux_spec g.edges g.nodes g.nodes.length g.nodes [] t ht
  · intro x
    constructor
    · intro hx
      rcases hx with hx | hx
      · cases hx
      · exact hx
    · intro hx
      exact Or.inr hx
  · exact List.nodup_nil
  · exact hnd
  · intro x hx
    cases hx
  · intro p w s hsplit
    cases p <;> cases hsplit
  · intro u v _ _ hc
    cases hc

end NewStyle

namespace NewStyle

/-! ## Level assignment -/

/-- Python `max` over a non-empty list of naturals (`0` for `[]`,
unreachable in the call sites below). -/
def natMax : List Nat → Nat
  | [] => 0
  | x :: xs => xs.foldl Nat.max x

/-- Python `min` over a non-empty list of naturals (`0` for `[]`,
unreachable in the call sites below). -/
def natMin : List Nat → Nat
  | [] => 0
  | x :: xs => xs.foldl Nat.min x

/-- Python `d.get(k, default)` on a string-to-nat dict. -/
def lookupD (l : List (String × Nat)) (k : String) (d : Nat) : Nat :=
  match l.lookup k with
  | some v => v
  | none => d

/-- Python `d[k] = v`: overwrite in place, preserving insertion position,
else append. -/
def setKV : List (String × Nat) → String → Nat → List (String × Nat)
  | [], k, v => [(k, v)]
  | (a, b) :: t, k, v =>
    if a = k then (k, v) :: t else (a, b) :: setKV t k v

/-- One iteration of the level-computation loop of
`_calculate_longest_path_levels`: a source gets level `0`, any other node
one more than the maximum over its predecessors' already-assigned levels
(`levels.get(pred, 0)`), or `0` if it has no predecessors. -/
def lplStep (sub : Graph) (sources : List String)
    (levels : List (String × Nat)) (node : String) : List (String × Nat) :=
  if node ∈ sources then setKV levels node 0
  else
    let predLevels := (predecessors sub node).map (fun p => lookupD levels p 0)
    setKV levels node (if predLevels.isEmpty then 0 else natMax predLevels + 1)

/-- The level-computation loop of `_calculate_longest_path_levels`, walked
over the topological order. -/
def longestPathLevelsFold (sub : Graph) (sources : List String)
    (topo : List String) : List (String × Nat) :=
  topo.foldl (lplStep sub sources) []

/-- The `NetworkXUnfeasible` exception raised by `nx.topological_sort` on
a cyclic graph. -/
inductive NxErr where
  | unfeasible
deriving DecidableEq

/-- `_calculate_longest_path_levels`. The source wraps
`nx.topological_sort` in `except nx.NetworkXError`, but the cycle failure
raises `NetworkXUnfeasible`, which subclasses `NetworkXAlgorithmError`
and not `NetworkXError`; the handler — and with it the call to
`_handle_cyclic_graph` — is therefore unreachable, and the exception
propagates to the caller (`_calculate_complex_order`). -/
def calc_longest_path_levels (sub : Graph) (sources : List String) :
    Except NxErr (List (String × Nat)) :=
  match topological_sort sub with
  | some topo => .ok (longestPathLevelsFold sub sources topo)
  | none => .error .unfeasible

/-! ## `_handle_cyclic_graph` (unreachable from the pipeline, embedded for
completeness) -/

/-- The strongly connected component of `n` (nodes reaching and reached
by `n`), in node order. -/
def sccOf (g : Graph) (n : String) : List String :=
  g.nodes.filter (fun m =>
    decide (m ∈ reachFrom g.nodes (adjEdge g) n) &&
    decide (n ∈ reachFrom g.nodes (adjEdge g) m))

/-- `nx.strongly_connected_components`, one component per unvisited seed
node, in node order. -/
def strongly_connected_components (g : Graph) : List (List String) :=
  (g.nodes.foldl (fun (st : List String × List (List String)) n =>
    if n ∈ st.1 then st
    else (st.1 ++ sccOf g n, st.2 ++ [sccOf g n])) ([], [])).2

/-- Python `max(l, key=f)`: first maximiser in iteration order. -/
def argmaxBy (f : String → Nat) : List String → Option String
  | [] => none
  | x :: xs => some (xs.foldl (fun b m => if f m > f b then m else b) x)

/-- Python `min(l, key=f)`: first minimiser in iteration order. -/
def argminBy (f : String → Nat) : List String → Option String
  | [] => none
  | x :: xs => some (xs.foldl (fun b m => if f m < f b then m else b) x)

/-- `_handle_cyclic_graph`: for each multi-node SCC remove the edge from
the SCC's highest-out-degree node to its lowest-in-degree node if present,
then retry the topological sort; on failure fall back to node insertion
order. -/
def handle_cyclic_graph (g : Graph) : List String :=
  let sccs := strongly_connected_components g
  let temp := sccs.foldl (fun tg scc =>
    if scc.length > 1 then
      let sub := subgraphOn tg scc
      match argmaxBy (fun n => outDegree sub n) scc,
            argminBy (fun n => inDegree sub n) scc with
      | some maxOut, some minIn =>
        if (maxOut, minIn) ∈ tg.edges then
          { tg with edges := tg.edges.erase (maxOut, minIn) }
        else tg
      | _, _ => tg
    else tg) g
  match topological_sort temp with
  | some t => t
  | none => g.nodes

/-! ## BFS fallback of `_calculate_complex_order`

Runs when `_calculate_longest_path_levels` raises (i.e. on every cyclic
component): breadth-first from the chosen sources; a successor already
visited has its level raised to `max(old, current + 1)` but is not
re-enqueued, and nodes unreachable from the sources are never assigned. -/

def bfsLevelsAux (sub : Graph) :
    Nat → List String → List (String × Nat) → List String → List (String × Nat)
  | 0, _, levels, _ => levels
  | _ + 1, [], levels, _ => levels
  | fuel + 1, current :: queue, levels, visited =>
    let currentLevel := lookupD levels current 0
    let st := (successors sub current).foldl
      (fun (st : List (String × Nat) × List String × List String) succ =>
        if succ ∈ st.2.2 then
          (setKV st.1 succ (Nat.max (lookupD st.1 succ 0) (currentLevel + 1)),
           st.2.1, st.2.2)
        else
          (setKV st.1 succ (currentLevel + 1), st.2.1 ++ [succ], st.2.2 ++ [succ]))
      (levels, queue, visited)
    bfsLevelsAux sub fuel st.2.1 st.1 st.2.2

def bfsLevels (sub : Graph) (sources : List String) : List (String × Nat) :=
  bfsLevelsAux sub (sources.length + sub.nodes.length) sources
    (sources.foldl (fun l s => setKV l s 0) []) sources

/-! ## `_identify_parallel_groups` -/

/-- Group the level map's entries by level value, in first-appearance
order (Python dict-of-lists build-up). -/
def addToLevel : List (Nat × List String) → Nat → String → List (Nat × List String)
  | [], lvl, n => [(lvl, [n])]
  | (l, ns) :: t, lvl, n =>
    if l = lvl then (l, ns ++ [n]) :: t else (l, ns) :: addToLevel t lvl n

/-- A node may join the group being grown only if no directed path
connects it, in either direction, to any current member
(`nx.has_path` on the graph passed to `_identify_parallel_groups`). -/
def canAdd (sub : Graph) (group : List String) (node : String) : Bool :=
  group.all (fun gn => !(hasPath sub node gn || hasPath sub gn node))

/-- The `while remaining_nodes` loop: each pass greedily grows one group,
removes its members, and repeats; if a pass adds nothing every remaining
node becomes a singleton group (unreachable, since an empty group accepts
any node). `fuel` is the initial number of remaining nodes. -/
def greedyGroups (sub : Graph) :
    Nat → List String → Nat → List (Nat × List String) → Nat × List (Nat × List String)
  | 0, _, counter, acc => (counter, acc)
  | fuel + 1, remaining, counter, acc =>
    if remaining.isEmpty then (counter, acc)
    else
      let pass := remaining.foldl
        (fun (st : List String × List String) node =>
          if canAdd sub st.1 node then (st.1 ++ [node], st.2)
          else (st.1, st.2 ++ [node])) ([], [])
      if pass.1.isEmpty then
        (counter + remaining.length,
         acc ++ remaining.enum.map (fun p => (counter + p.1, [p.2])))
      else
        greedyGroups sub fuel pass.2 (counter + 1) (acc ++ [(counter, pass.1)])

/-- `_identify_parallel_groups`: per level, a single node forms its own
group; otherwise the greedy independent-group loop runs. -/
def identify_parallel_groups (sub : Graph) (levels : List (String × Nat)) :
    List (Nat × List String) :=
  let levelNodes := levels.foldl (fun acc nl => addToLevel acc nl.2 nl.1) []
  (levelNodes.foldl (fun (st : Nat × List (Nat × List String)) ln =>
    if ln.2.length = 1 then (st.1 + 1, st.2 ++ [(st.1, ln.2)])
    else greedyGroups sub ln.2.length ln.2 st.1 st.2) (0, [])).2

/-! ## `_calculate_complex_order` and `_calculate_transformation_order` -/

/-- Source selection of `_calculate_complex_order`: the in-degree-0
nodes, or — when none exist — all nodes of minimum in-degree. -/
def complexSources (sub : Graph) : List String :=
  let sources0 := sub.nodes.filter (fun n => decide (inDegree sub n = 0))
  if sources0.isEmpty then
    let minIn := natMin (sub.nodes.map (fun n => inDegree sub n))
    sub.nodes.filter (fun n => decide (inDegree sub n = minIn))
  else sources0

/-- `_calculate_complex_order`: choose sources, then the longest-path
levels and the parallel groups; when the level computation raises (cyclic
component) the `except Exception` branch runs the BFS fallback, whose
group labels carry no `_group_` suffix. Returns (orders, parallel-group
labels). -/
def calc_complex_order (sub : Graph) (componentIdx : Nat) :
    List (String × Nat) × List (String × String) :=
  let sources := complexSources sub
  match calc_longest_path_levels sub sources with
  | .ok levels =>
    let levelGroups := identify_parallel_groups sub levels
    (levels.map (fun nl => (nl.1, nl.2 + 1)),
     levels.map (fun nl =>
       match levelGroups.find? (fun gp => decide (nl.1 ∈ gp.2)) with
       | some gp =>
         (nl.1, "comp_" ++ toString componentIdx ++ "_level_" ++
           toString nl.2 ++ "_group_" ++ toString gp.1)
       | none =>
         (nl.1, "comp_" ++ toString componentIdx ++ "_level_" ++
           toString nl.2 ++ "_single")))
  | .error _ =>
    let levels := bfsLevels sub sources
    (levels.map (fun nl => (nl.1, nl.2 + 1)),
     levels.map (fun nl =>
       (nl.1, "comp_" ++ toString componentIdx ++ "_level_" ++ toString nl.2)))

/-- All nodes weakly connected to `n` (reachability over symmetrised
edges). -/
def weakReach (g : Graph) (n : String) : List String :=
  reachFrom g.nodes (adjSym g) n

/-- The weakly connected component of `n`, in node order. -/
def weakComponentOf (g : Graph) (n : String) : List String :=
  g.nodes.filter (fun m => decide (m ∈ weakReach g n))

/-- `nx.weakly_connected_components`, one component per unvisited seed
node, in node order. -/
def weakly_connected_components (g : Graph) : List (List String) :=
  (g.nodes.foldl (fun (st : List String × List (List String)) n =>
    if n ∈ st.1 then st
    else (st.1 ++ weakComponentOf g n, st.2 ++ [weakComponentOf g n])) ([], [])).2

/-- `_calculate_transformation_order`. A single-node component is labelled
`isolated_<idx>` with order `0`; larger components go through
`_calculate_complex_order`. The trailing loop adds order-0 `unconnected`
entries for cached transformation names; in the `main()` pipeline the
logic cache is populated only *after* this method runs, so that loop sees
an empty name list there (`transNames = []`). The dict `update` calls are
embedded as list appends, faithful because distinct components assign
disjoint key sets (proved below) and lookups take the first match. -/
def calc_transformation_order (instances : List InstanceRec)
    (connectors : List ConnectorRec) (transNames : List String) :
    List (String × Nat) × List (String × String) :=
  let g := create_basic_lineage_graph instances connectors
  let comps := weakly_connected_components g
  let base := (comps.foldl
    (fun (st : Nat × List (String × Nat) × List (String × String)) comp =>
      match comp with
      | [n] =>
        (st.1 + 1, st.2.1 ++ [(n, 0)],
         st.2.2 ++ [(n, "isolated_" ++ toString st.1)])
      | _ =>
        let res := calc_complex_order (subgraphOn g comp) st.1
        (st.1 + 1, st.2.1 ++ res.1, st.2.2 ++ res.2)) (0, [], [])).2
  transNames.foldl (fun (st : List (String × Nat) × List (String × String)) t =>
    if (st.1.lookup t).isSome then st
    else (st.1 ++ [(t, 0)], st.2 ++ [(t, "unconnected")])) base

end NewStyle

namespace NewStyle

/-! ## Association-list and `max` lemmas -/

theorem lookup_setKV_self (l : List (String × Nat)) (k : String) (v : Nat) :
    (setKV l k v).lookup k = some v := by
  induction l with
  | nil => simp [setKV, List.lookup]
  | cons p t ih =>
    rcases p with ⟨a, b⟩
    by_cases hak : a = k
    · subst hak
      simp [setKV, List.lookup]
    · have hka : (k == a) = false := by
        simp
        exact fun h => hak h.symm
      simp [setKV, hak, List.lookup, hka, ih]

theorem lookup_setKV_ne (l : List (String × Nat)) {a k : String} (v : Nat)
    (h : a ≠ k) : (setKV l k v).lookup a = l.lookup a := by
  have hak : (a == k) = false := by simp [h]
  induction l with
  | nil => simp [setKV, List.lookup, hak]
  | cons p t ih =>
    rcases p with ⟨x, y⟩
    by_cases hxk : x = k
    · subst hxk
      simp [setKV, List.lookup, hak]
    · by_cases hax : a = x
      · subst hax
        simp [setKV, hxk, List.lookup]
      · have h2 : (a == x) = false := by simp [hax]
        simp [setKV, hxk, List.lookup, h2, ih]

theorem le_foldl_max (xs : List Nat) (a : Nat) : a ≤ xs.foldl Nat.max a := by
  induction xs generalizing a with
  | nil => exact Nat.le_refl a
  | cons x t ih =>
    exact Nat.le_trans (Nat.le_max_left a x) (ih (Nat.max a x))

theorem mem_le_foldl_max (xs : List Nat) (a : Nat) :
    ∀ x ∈ xs, x ≤ xs.foldl Nat.max a := by
  induction xs generalizing a with
  | nil => intro x hx; cases hx
  | cons y t ih =>
    intro x hx
    rcases List.mem_cons.mp hx with h | h
    · subst h
      exact Nat.le_trans (Nat.le_max_right a x) (le_foldl_max t (Nat.max a x))
    · exact ih (Nat.max a y) x h

theorem natMax_ge {l : List Nat} {x : Nat} (h : x ∈ l) : x ≤ natMax l := by
  cases l with
  | nil => cases h
  | cons y t =>
    rcases List.mem_cons.mp h with h1 | h1
    · subst h1
      exact le_foldl_max t x
    · exact mem_le_foldl_max t y x h1

theorem lookup_map_add_one (l : List (String × Nat)) (k : String) :
    (l.map (fun nl => (nl.1, nl.2 + 1))).lookup k = (l.lookup k).map (· + 1) := by
  induction l with
  | nil => simp [List.lookup]
  | cons p t ih =>
    rcases p with ⟨a, b⟩
    by_cases hak : k = a
    · subst hak
      simp [List.lookup]
    · have h2 : (k == a) = false := by simp [hak]
      simp [List.lookup, h2, ih]

theorem inDegree_pos_of_edge {sub : Graph} {u v : String}
    (h : (u, v) ∈ sub.edges) : inDegree sub v ≠ 0 := by
  unfold inDegree
  intro hlen
  have h2 : (u, v) ∈ sub.edges.filter (fun e => decide (e.2 = v)) :=
    List.mem_filter.mpr ⟨h, by simp⟩
  rw [List.length_eq_zero.mp hlen] at h2
  cases h2

theorem mem_predecessors_of_edge {sub : Graph} {u v : String}
    (h : (u, v) ∈ sub.edges) : u ∈ predecessors sub v := by
  unfold predecessors
  refine List.mem_map.mpr ⟨(u, v), ?_, rfl⟩
  exact List.mem_filter.mpr ⟨h, by simp⟩

/-! ## C1: edge monotonicity of the longest-path level assignment -/

theorem lplStep_of_source {sub : Graph} {sources : List String}
    {node : String} (L : List (String × Nat)) (hs : node ∈ sources) :
    lplStep sub sources L node = setKV L node 0 := by
  unfold lplStep
  rw [if_pos hs]

theorem lplStep_of_nonsource {sub : Graph} {sources : List String}
    {node : String} (L : List (String × Nat)) (hs : node ∉ sources) :
    lplStep sub sources L node = setKV L node
      (if ((predecessors sub node).map (fun p => lookupD L p 0)).isEmpty then 0
       else natMax ((predecessors sub node).map (fun p => lookupD L p 0)) + 1) := by
  unfold lplStep
  rw [if_neg hs]

/-- Invariant proof for the level-computation fold of
`_calculate_longest_path_levels`: walking a predecessor-closed order
whose processed prefix is already assigned, every edge into a newly
processed node gains `level(v) ≥ level(u) + 1`. -/
theorem lpl_fold_spec (sub : Graph) (sources : List String)
    (hsrc : ∀ n ∈ sources, inDegree sub n = 0)
    (he : ∀ e ∈ sub.edges, e.1 ∈ sub.nodes ∧ e.2 ∈ sub.nodes) :
    ∀ (rest done : List String) (L : List (String × Nat)),
    (done ++ rest).Nodup →
    (∀ p w s, done ++ rest = p ++ w :: s →
      ∀ u, (u, w) ∈ sub.edges → u ∈ sub.nodes → u ∈ p) →
    (∀ x, (L.lookup x).isSome ↔ x ∈ done) →
    (∀ u v, (u, v) ∈ sub.edges → v ∈ done →
      ∃ lu lv, L.lookup u = some lu ∧ L.lookup v = some lv ∧ lu + 1 ≤ lv) →
    (∀ u v, (u, v) ∈ sub.edges → v ∈ done ++ rest →
      ∃ lu lv,
        ((rest.foldl (lplStep sub sources) L).lookup u = some lu ∧
         (rest.foldl (lplStep sub sources) L).lookup v = some lv ∧ lu + 1 ≤ lv)) := by
  intro rest
  induction rest with
  | nil =>
    intro done L _ _ _ hpairs u v huv hv
    rw [List.append_nil] at hv
    exact hpairs u v huv hv
  | cons node rest ih =>
    intro done L hnd horder hkeys hpairs u v huv hv
    have hnode_notin : node ∉ done := by
      intro hc
      have hd := List.disjoint_of_nodup_append hnd
      exact hd hc (List.mem_cons_self _ _)
    have hassoc : done ++ node :: rest = (done ++ [node]) ++ rest := by
      simp
    -- the step rewrites as a single key assignment
    have hstep : ∃ val, lplStep sub sources L node = setKV L node val ∧
        (∀ a, (a, node) ∈ sub.edges → a ∈ done →
          ∀ la, L.lookup a = some la → la + 1 ≤ val) := by
      by_cases hs : node ∈ sources
      · refine ⟨0, lplStep_of_source L hs, ?_⟩
        intro a ha _ _ _
        exact absurd (hsrc node hs) (inDegree_pos_of_edge ha)
      · refine ⟨_, lplStep_of_nonsource L hs, ?_⟩
        intro a ha _ la hla
        have hmem : lookupD L a 0 ∈
            (predecessors sub node).map (fun p => lookupD L p 0) :=
          List.mem_map.mpr ⟨a, mem_predecessors_of_edge ha, rfl⟩
        have hemp : ((predecessors sub node).map (fun p => lookupD L p 0)).isEmpty
            = false := by
          cases hl : (predecessors sub node).map (fun p => lookupD L p 0) with
          | nil => rw [hl] at hmem; cases hmem
          | cons c cs => rfl
        have hla2 : lookupD L a 0 = la := by
          unfold lookupD
          rw [hla]
        have hge := natMax_ge hmem
        rw [hemp]
        simp only [Bool.false_eq_true, if_false]
        omega
    rcases hstep with ⟨val, hvaleq, hvaldom⟩
    have hfold : (node :: rest).foldl (lplStep sub sources) L
        = rest.foldl (lplStep sub sources) (setKV L node val) := by
      rw [List.foldl_cons, hvaleq]
    rw [hfold]
    have hkeys2 : ∀ x, ((setKV L node val).lookup x).isSome ↔ x ∈ done ++ [node] := by
      intro x
      by_cases hx : x = node
      · subst hx
        rw [lookup_setKV_self]
        simp
      · rw [lookup_setKV_ne _ _ hx, hkeys x]
        simp [hx]
    have hpairs2 : ∀ a b, (a, b) ∈ sub.edges → b ∈ done ++ [node] →
        ∃ la lb, (setKV L node val).lookup a = some la ∧
          (setKV L node val).lookup b = some lb ∧ la + 1 ≤ lb := by
      intro a b hab hb
      rcases List.mem_append.mp hb with hb1 | hb1
      · rcases hpairs a b hab hb1 with ⟨la, lb, h1, h2, h3⟩
        have hane : a ≠ node := by
          intro hc
          subst hc
          exact hnode_notin ((hkeys a).mp (by rw [h1]; rfl))
        have hbne : b ≠ node := fun hc => hnode_notin (hc ▸ hb1)
        exact ⟨la, lb, by rw [lookup_setKV_ne _ _ hane, h1],
          by rw [lookup_setKV_ne _ _ hbne, h2], h3⟩
      · rcases List.mem_singleton.mp hb1 with hbn
        subst hbn
        have ha_done : a ∈ done :=
          horder done b rest rfl a hab (he (a, b) hab).1
        have ha_some : (L.lookup a).isSome := (hkeys a).mpr ha_done
        rcases Option.isSome_iff_exists.mp ha_some with ⟨la, hla⟩
        have hane : a ≠ b := fun hc => hnode_notin (hc ▸ ha_done)
        exact ⟨la, val, by rw [lookup_setKV_ne _ _ hane, hla],
          lookup_setKV_self _ _ _, hvaldom a hab ha_done la hla⟩
    have hnd2 : ((done ++ [node]) ++ rest).Nodup := by
      rw [← hassoc]; exact hnd
    have horder2 : ∀ p w s, (done ++ [node]) ++ rest = p ++ w :: s →
        ∀ a, (a, w) ∈ sub.edges → a ∈ sub.nodes → a ∈ p := by
      intro p w s hsplit
      apply horder
      rw [hassoc]; exact hsplit
    have hv2 : v ∈ (done ++ [node]) ++ rest := by
      rw [← hassoc]; exact hv
    exact ih (done ++ [node]) (setKV L node val) hnd2 horder2 hkeys2 hpairs2 u v huv hv2

end NewStyle

namespace NewStyle

/-- C1 amended: for a component whose topological sort succeeds (an
acyclic subgraph, so the sources are exactly the in-degree-0 nodes),
every edge `(u, v)` satisfies `level(v) ≥ level(u) + 1` in the exported
(1-based) level assignment of `_calculate_complex_order`. -/
theorem C1_amended_acyclic_levels (sub : Graph) (idx : Nat) (t : List String)
    (hnd : sub.nodes.Nodup)
    (he : ∀ e ∈ sub.edges, e.1 ∈ sub.nodes ∧ e.2 ∈ sub.nodes)
    (ht : topological_sort sub = some t) :
    ∀ u v, (u, v) ∈ sub.edges →
      ∃ lu lv, (calc_complex_order sub idx).1.lookup u = some lu ∧
        (calc_complex_order sub idx).1.lookup v = some lv ∧ lu + 1 ≤ lv := by
  intro u v huv
  obtain ⟨hu_nodes, hv_nodes⟩ := he (u, v) huv
  obtain ⟨hmem, hnodup, horder⟩ := topological_sort_spec hnd ht
  cases t with
  | nil =>
    exact absurd ((hmem v).mpr hv_nodes) (by intro h; cases h)
  | cons w t2 =>
    -- the head of a successful sort has in-degree 0
    have hw0 : inDegree sub w = 0 := by
      unfold inDegree
      rw [List.length_eq_zero, List.eq_nil_iff_forall_not_mem]
      intro e hce
      have h1 := List.mem_filter.mp hce
      have h2 : e.2 = w := of_decide_eq_true h1.2
      have h3 : e.1 ∈ ([] : List String) := by
        apply horder [] w t2 rfl e.1
        · rw [← h2]
          exact h1.1
        · exact (he e h1.1).1
      cases h3
    have hw_nodes : w ∈ sub.nodes := (hmem w).mp (List.mem_cons_self _ _)
    have hw_src : w ∈ sub.nodes.filter (fun n => decide (inDegree sub n = 0)) :=
      List.mem_filter.mpr ⟨hw_nodes, decide_eq_true hw0⟩
    have hie : (sub.nodes.filter (fun n => decide (inDegree sub n = 0))).isEmpty
        = false := by
      cases hfe : sub.nodes.filter (fun n => decide (inDegree sub n = 0)) with
      | nil => rw [hfe] at hw_src; cases hw_src
      | cons c cs => rfl
    have hcs : complexSources sub
        = sub.nodes.filter (fun n => decide (inDegree sub n = 0)) := by
      unfold complexSources
      rw [if_neg]
      rw [hie]
      exact Bool.false_ne_true
    have hsrc : ∀ n ∈ complexSources sub, inDegree sub n = 0 := by
      intro n hn
      rw [hcs] at hn
      exact of_decide_eq_true (List.mem_filter.mp hn).2
    have hlift := lpl_fold_spec sub (complexSources sub) hsrc he
      (w :: t2) [] []
      (by rw [List.nil_append]; exact hnodup)
      (by
        intro p w2 s hsplit a ha hanodes
        apply horder p w2 s _ a ha hanodes
        rw [← hsplit, List.nil_append])
      (by intro x; simp [List.lookup])
      (by intro a b _ hb; cases hb)
      u v huv
      (by rw [List.nil_append]; exact (hmem v).mpr hv_nodes)
    rcases hlift with ⟨lu, lv, h1, h2, h3⟩
    have hord : (calc_complex_order sub idx).1 =
        (longestPathLevelsFold sub (complexSources sub)
          (w :: t2)).map (fun nl => (nl.1, nl.2 + 1)) := by
      simp only [calc_complex_order, calc_longest_path_levels, ht]
    refine ⟨lu + 1, lv + 1, ?_, ?_, by omega⟩
    · rw [hord, lookup_map_add_one]
      unfold longestPathLevelsFold
      rw [h1]
      rfl
    · rw [hord, lookup_map_add_one]
      unfold longestPathLevelsFold
      rw [h2]
      rfl

/-- The two-node cycle used as counterexample input: instances typed with
an unrecognised (empty) transformation type so that node names equal
instance names, and connectors `A → B`, `B → A`. -/
def cycInstances : List InstanceRec := [⟨"A", ""⟩, ⟨"B", ""⟩]

def cycConnectors : List ConnectorRec :=
  [⟨"f", "A", "", "g", "B", ""⟩, ⟨"g", "B", "", "f", "A", ""⟩]

/-- C1 counterexample: in the two-node cycle `A ⇄ B` no edge is ever
removed — the topological sort fails, the synthetic minimum-in-degree
sources `[A, B]` are chosen, and the BFS fallback assigns exported levels
`A ↦ 3`, `B ↦ 2` — so the retained edge `(A → B)` violates
`level(v) ≥ level(u) + 1`. (`_handle_cyclic_graph`, were it reachable,
would also remove nothing here: the max-out-degree and min-in-degree
nodes of the SCC coincide, and it falls back to node order.) -/
theorem C1_counterexample :
    ("A", "B") ∈ (create_basic_lineage_graph cycInstances cycConnectors).edges ∧
    topological_sort (create_basic_lineage_graph cycInstances cycConnectors)
      = none ∧
    handle_cyclic_graph (create_basic_lineage_graph cycInstances cycConnectors)
      = ["A", "B"] ∧
    (calc_transformation_order cycInstances cycConnectors []).1.lookup "A"
      = some 3 ∧
    (calc_transformation_order cycInstances cycConnectors []).1.lookup "B"
      = some 2 ∧
    ¬(3 + 1 ≤ 2) := by
  decide

/-- Chain `A → B` used as witness input for the amended C1. -/
def chainInstances : List InstanceRec := [⟨"A", ""⟩, ⟨"B", ""⟩]

def chainConnectors : List ConnectorRec := [⟨"f", "A", "", "g", "B", ""⟩]

/-- Witness for the amended C1 at the two-node chain `A → B`. -/
theorem C1_amended_witness :
    ∃ lu lv,
      (calc_complex_order
        (create_basic_lineage_graph chainInstances chainConnectors) 0).1.lookup "A"
        = some lu ∧
      (calc_complex_order
        (create_basic_lineage_graph chainInstances chainConnectors) 0).1.lookup "B"
        = some lv ∧ lu + 1 ≤ lv :=
  C1_amended_acyclic_levels
    (create_basic_lineage_graph chainInstances chainConnectors) 0 ["A", "B"]
    (by decide) (by decide) (by decide) "A" "B" (by decide)

end NewStyle

namespace NewStyle

/-! ## C2: parallel groups contain no connected pair -/

/-- All members of the same parallel group are pairwise unconnected by
directed paths. -/
def PairOK (sub : Graph) (grp : List String) : Prop :=
  ∀ a ∈ grp, ∀ b ∈ grp, a ≠ b → hasPath sub a b = false

theorem canAdd_spec {sub : Graph} {group : List String} {node : String}
    (h : canAdd sub group node = true) :
    ∀ gn ∈ group, hasPath sub node gn = false ∧ hasPath sub gn node = false := by
  intro gn hgn
  unfold canAdd at h
  have h2 := List.all_eq_true.mp h gn hgn
  rw [Bool.not_eq_true', Bool.or_eq_false_iff] at h2
  exact h2

theorem PairOK_of_length_one {sub : Graph} {grp : List String}
    (h : grp.length = 1) : PairOK sub grp := by
  rcases List.length_eq_one.mp h with ⟨x, hx⟩
  subst hx
  intro a ha b hb hab
  rcases List.mem_singleton.mp ha with h1
  rcases List.mem_singleton.mp hb with h2
  subst h1; subst h2
  exact absurd rfl hab

theorem greedy_pass_indep (sub : Graph) (nodes0 : List String) :
    ∀ st : List String × List String, PairOK sub st.1 →
    PairOK sub (nodes0.foldl (fun st node =>
      if canAdd sub st.1 node then (st.1 ++ [node], st.2)
      else (st.1, st.2 ++ [node])) st).1 := by
  induction nodes0 with
  | nil => exact fun st h => h
  | cons node rest ih =>
    intro st hst
    rw [List.foldl_cons]
    by_cases hc : canAdd sub st.1 node = true
    · rw [if_pos hc]
      apply ih
      intro a ha b hb hab
      rcases List.mem_append.mp ha with ha1 | ha1
      · rcases List.mem_append.mp hb with hb1 | hb1
        · exact hst a ha1 b hb1 hab
        · rcases List.mem_singleton.mp hb1 with h
          subst h
          exact (canAdd_spec hc a ha1).2
      · rcases List.mem_singleton.mp ha1 with h
        subst h
        rcases List.mem_append.mp hb with hb1 | hb1
        · exact (canAdd_spec hc b hb1).1
        · rcases List.mem_singleton.mp hb1 with h2
          subst h2
          exact absurd rfl hab
    · rw [if_neg hc]
      exact ih _ hst

theorem greedyGroups_indep (sub : Graph) :
    ∀ (fuel : Nat) (remaining : List String) (counter : Nat)
      (acc : List (Nat × List String)),
    (∀ g ∈ acc, PairOK sub g.2) →
    ∀ g ∈ (greedyGroups sub fuel remaining counter acc).2, PairOK sub g.2 := by
  intro fuel
  induction fuel with
  | zero => exact fun remaining counter acc hacc => hacc
  | succ fuel ih =>
    intro remaining counter acc hacc
    unfold greedyGroups
    by_cases hre : remaining.isEmpty
    · rw [if_pos hre]
      exact hacc
    · rw [if_neg hre]
      by_cases hp : (remaining.foldl (fun st node =>
          if canAdd sub st.1 node then (st.1 ++ [node], st.2)
          else (st.1, st.2 ++ [node])) ([], [])).1.isEmpty
      · rw [if_pos hp]
        intro g hg
        rcases List.mem_append.mp hg with hg1 | hg1
        · exact hacc g hg1
        · rcases List.mem_map.mp hg1 with ⟨p, _, hpe⟩
          rw [← hpe]
          exact PairOK_of_length_one rfl
      · rw [if_neg hp]
        apply ih _ _ _
        intro g hg
        rcases List.mem_append.mp hg with hg1 | hg1
        · exact hacc g hg1
        · rcases List.mem_singleton.mp hg1 with h
          subst h
          exact greedy_pass_indep sub remaining ([], []) (by intro a ha; cases ha)

/-- C2: every pair of distinct nodes placed in the same parallel group by
`_identify_parallel_groups` has no directed path between them, in either
direction, in the graph over which the groups were computed (the full
component graph passed in by `_calculate_complex_order`). -/
theorem C2_parallel_groups_no_path (sub : Graph)
    (levels : List (String × Nat)) (gid : Nat) (grp : List String)
    (hg : (gid, grp) ∈ identify_parallel_groups sub levels) :
    ∀ a ∈ grp, ∀ b ∈ grp, a ≠ b →
      hasPath sub a b = false ∧ hasPath sub b a = false := by
  have hmain : ∀ g ∈ identify_parallel_groups sub levels, PairOK sub g.2 := by
    unfold identify_parallel_groups
    generalize (levels.foldl (fun acc nl => addToLevel acc nl.2 nl.1) []) = lns
    have hfold : ∀ (lns : List (Nat × List String))
        (st : Nat × List (Nat × List String)),
        (∀ g ∈ st.2, PairOK sub g.2) →
        ∀ g ∈ (lns.foldl (fun st ln =>
          if ln.2.length = 1 then (st.1 + 1, st.2 ++ [(st.1, ln.2)])
          else greedyGroups sub ln.2.length ln.2 st.1 st.2) st).2,
          PairOK sub g.2 := by
      intro lns
      induction lns with
      | nil => exact fun st h => h
      | cons ln rest ih =>
        intro st hst
        rw [List.foldl_cons]
        by_cases hl : ln.2.length = 1
        · rw [if_pos hl]
          apply ih
          intro g hg
          rcases List.mem_append.mp hg with hg1 | hg1
          · exact hst g hg1
          · rcases List.mem_singleton.mp hg1 with h
            subst h
            exact PairOK_of_length_one hl
        · rw [if_neg hl]
          apply ih
          have hgg := greedyGroups_indep sub ln.2.length ln.2 st.1 st.2 hst
          have hpair : greedyGroups sub ln.2.length ln.2 st.1 st.2
              = ((greedyGroups sub ln.2.length ln.2 st.1 st.2).1,
                 (greedyGroups sub ln.2.length ln.2 st.1 st.2).2) := rfl
          rw [hpair]
          exact hgg
    exact hfold lns (0, []) (by intro g hg; cases hg)
  intro a ha b hb hab
  have h1 := hmain (gid, grp) hg
  exact ⟨h1 a ha b hb hab, h1 b hb a ha (fun hc => hab hc.symm)⟩

/-- Fork graph used as witness input for C2: `A → C ← B`, with levels
placing `A` and `B` together. -/
def forkGraph : Graph :=
  { nodes := ["A", "B", "C"], edges := [("A", "C"), ("B", "C")] }

/-- Witness for C2: in the fork graph, `A` and `B` land in group `0` and
indeed have no path between them in either direction. -/
theorem C2_witness :
    hasPath forkGraph "A" "B" = false ∧ hasPath forkGraph "B" "A" = false :=
  C2_parallel_groups_no_path forkGraph [("A", 0), ("B", 0), ("C", 1)] 0 ["A", "B"]
    (by decide) "A" (by decide) "B" (by decide) (by decide)

end NewStyle

namespace NewStyle

/-! ## C5: degraded orderings carry no observable flag -/

theorem str_data_append (a b : String) : (a ++ b).data = a.data ++ b.data := rfl

theorem strStarts_append_left (p t : String) : strStarts (p ++ t) p = true := by
  unfold strStarts
  rw [str_data_append, List.isPrefixOf_iff_prefix]
  exact List.prefix_append _ _

theorem str_append_assoc (a b c : String) : a ++ b ++ c = a ++ (b ++ c) := by
  have h : (a ++ b ++ c).data = (a ++ (b ++ c)).data := by
    rw [str_data_append, str_data_append, str_data_append, str_data_append,
      List.append_assoc]
  cases a with
  | mk la =>
    cases b with
    | mk lb =>
      cases c with
      | mk lc =>
        exact congrArg String.mk h

theorem strStarts_chain2 (p a b : String) :
    strStarts (p ++ a ++ b) p = true := by
  rw [str_append_assoc]
  exact strStarts_append_left _ _

theorem strStarts_chain3 (p a b c : String) :
    strStarts (p ++ a ++ b ++ c) p = true := by
  rw [str_append_assoc, str_append_assoc]
  exact strStarts_append_left _ _

theorem strStarts_chain4 (p a b c d : String) :
    strStarts (p ++ a ++ b ++ c ++ d) p = true := by
  rw [str_append_assoc, str_append_assoc, str_append_assoc]
  exact strStarts_append_left _ _

theorem strStarts_chain5 (p a b c d e : String) :
    strStarts (p ++ a ++ b ++ c ++ d ++ e) p = true := by
  rw [str_append_assoc, str_append_assoc, str_append_assoc, str_append_assoc]
  exact strStarts_append_left _ _

/-- Every parallel-group label produced by `_calculate_complex_order`
starts with `comp_`, in the normal path and in the BFS fallback alike. -/
theorem calc_complex_order_labels (sub : Graph) (idx : Nat) :
    ∀ p ∈ (calc_complex_order sub idx).2, strStarts p.2 "comp_" = true := by
  intro p hp
  simp only [calc_complex_order] at hp
  split at hp
  · rcases List.mem_map.mp hp with ⟨nl, _, hpe⟩
    subst hpe
    split
    · exact strStarts_chain5 _ _ _ _ _ _
    · exact strStarts_chain4 _ _ _ _ _
  · rcases List.mem_map.mp hp with ⟨nl, _, hpe⟩
    subst hpe
    exact strStarts_chain3 _ _ _ _

/-- C5 amended: the result of `_calculate_transformation_order` carries no
degradation flag — every parallel-group label is of the plain
`isolated_<i>`, `unconnected`, or `comp_...` form, whichever fallback was
taken; the `fallback_<i>` labels exist only in the dead
exception-recovery branch, which no reachable input triggers since both
callees catch or return their own failures. -/
theorem C5_amended_no_flag_in_result (instances : List InstanceRec)
    (connectors : List ConnectorRec) (transNames : List String) :
    ∀ p ∈ (calc_transformation_order instances connectors transNames).2,
      strStarts p.2 "isolated_" = true ∨ p.2 = "unconnected" ∨
      strStarts p.2 "comp_" = true := by
  intro p hp
  unfold calc_transformation_order at hp
  -- peel the trailing `unconnected` loop
  have hbase : ∀ (tn : List String)
      (st : List (String × Nat) × List (String × String)),
      (∀ q ∈ st.2, strStarts q.2 "isolated_" = true ∨ q.2 = "unconnected" ∨
        strStarts q.2 "comp_" = true) →
      ∀ q ∈ (tn.foldl (fun st t =>
        if (st.1.lookup t).isSome then st
        else (st.1 ++ [(t, 0)], st.2 ++ [(t, "unconnected")])) st).2,
        strStarts q.2 "isolated_" = true ∨ q.2 = "unconnected" ∨
        strStarts q.2 "comp_" = true := by
    intro tn
    induction tn with
    | nil => exact fun st h => h
    | cons t rest ih =>
      intro st hst
      rw [List.foldl_cons]
      by_cases hl : (st.1.lookup t).isSome
      · rw [if_pos hl]
        exact ih st hst
      · rw [if_neg hl]
        apply ih
        intro q hq
        rcases List.mem_append.mp hq with h1 | h1
        · exact hst q h1
        · rcases List.mem_singleton.mp h1 with h2
          subst h2
          exact Or.inr (Or.inl rfl)
  -- the component loop produces only isolated_ or comp_ labels
  have hcomp : ∀ (comps : List (List String)) (g : Graph)
      (st : Nat × List (String × Nat) × List (String × String)),
      (∀ q ∈ st.2.2, strStarts q.2 "isolated_" = true ∨ q.2 = "unconnected" ∨
        strStarts q.2 "comp_" = true) →
      ∀ q ∈ (comps.foldl
        (fun (st : Nat × List (String × Nat) × List (String × String)) comp =>
          match comp with
          | [n] =>
            (st.1 + 1, st.2.1 ++ [(n, 0)],
             st.2.2 ++ [(n, "isolated_" ++ toString st.1)])
          | _ =>
            let res := calc_complex_order (subgraphOn g comp) st.1
            (st.1 + 1, st.2.1 ++ res.1, st.2.2 ++ res.2)) st).2.2,
        strStarts q.2 "isolated_" = true ∨ q.2 = "unconnected" ∨
        strStarts q.2 "comp_" = true := by
    intro comps g
    induction comps with
    | nil => exact fun st h => h
    | cons comp rest ih =>
      intro st hst
      rw [List.foldl_cons]
      match comp with
      | [n] =>
        apply ih
        intro q hq
        rcases List.mem_append.mp hq with h1 | h1
        · exact hst q h1
        · rcases List.mem_singleton.mp h1 with h2
          subst h2
          exact Or.inl (strStarts_append_left _ _)
      | [] =>
        apply ih
        intro q hq
        rcases List.mem_append.mp hq with h1 | h1
        · exact hst q h1
        · exact Or.inr (Or.inr (calc_complex_order_labels _ _ q h1))
      | n1 :: n2 :: ns =>
        apply ih
        intro q hq
        rcases List.mem_append.mp hq with h1 | h1
        · exact hst q h1
        · exact Or.inr (Or.inr (calc_complex_order_labels _ _ q h1))
  exact hbase transNames _ (hcomp _ _ (0, [], []) (by intro q hq; cases hq)) p hp

/-- Witness for the amended C5 at the two-node cycle input. -/
theorem C5_amended_witness :
    strStarts "comp_0_level_2" "isolated_" = true ∨
    ("comp_0_level_2" : String) = "unconnected" ∨
    strStarts "comp_0_level_2" "comp_" = true :=
  C5_amended_no_flag_in_result cycInstances cycConnectors []
    ("A", "comp_0_level_2") (by decide)

/-- C5 counterexample: on the two-node cycle the degraded path is taken
(the topological sort fails and the BFS fallback orders the nodes), yet
the returned maps contain no flag: the group labels are the ordinary
`comp_<i>_level_<l>` strings, with no `fallback` marker anywhere, and no
boolean accompanies the result. -/
theorem C5_counterexample :
    topological_sort (create_basic_lineage_graph cycInstances cycConnectors)
      = none ∧
    (calc_transformation_order cycInstances cycConnectors []).2
      = [("A", "comp_0_level_2"), ("B", "comp_0_level_1")] ∧
    ((calc_transformation_order cycInstances cycConnectors []).2.all
      (fun p => !(strContains p.2 "fallback"))) = true := by
  decide

end NewStyle

namespace NewStyle

/-! ## Well-formedness of constructed graphs -/

theorem nodup_nodes_addNode {g : Graph} (n : String) (h : g.nodes.Nodup) :
    (addNode g n).nodes.Nodup := by
  unfold addNode
  split
  · exact h
  · refine List.Nodup.append h (List.nodup_singleton n) ?_
    intro x hx hx2
    rcases List.mem_singleton.mp hx2 with h2
    subst h2
    rename_i hnin
    exact hnin hx

theorem nodup_nodes_addEdge {g : Graph} (u v : String) (h : g.nodes.Nodup) :
    (addEdge g u v).nodes.Nodup :=
  nodup_nodes_addNode v (nodup_nodes_addNode u h)

theorem create_nodes_nodup (instances : List InstanceRec)
    (connectors : List ConnectorRec) :
    (create_basic_lineage_graph instances connectors).nodes.Nodup := by
  unfold create_basic_lineage_graph
  have h1 : ∀ (l : List InstanceRec) (g : Graph), g.nodes.Nodup →
      (l.foldl (fun g i => addNode g (instanceNode i)) g).nodes.Nodup := by
    intro l
    induction l with
    | nil => exact fun g h => h
    | cons i rest ih => exact fun g h => ih _ (nodup_nodes_addNode _ h)
  have h2 : ∀ (l : List ConnectorRec) (g : Graph), g.nodes.Nodup →
      (l.foldl (fun g c => addEdge g (connFromNode c) (connToNode c)) g).nodes.Nodup := by
    intro l
    induction l with
    | nil => exact fun g h => h
    | cons c rest ih => exact fun g h => ih _ (nodup_nodes_addEdge _ _ h)
  exact h2 _ _ (h1 _ _ List.nodup_nil)

/-- Edge endpoints are nodes. -/
def EdgesWF (g : Graph) : Prop :=
  ∀ e ∈ g.edges, e.1 ∈ g.nodes ∧ e.2 ∈ g.nodes

theorem edgesWF_addNode {g : Graph} (n : String) (h : EdgesWF g) :
    EdgesWF (addNode g n) := by
  intro e he
  have he2 : e ∈ g.edges := by
    unfold addNode at he
    split at he <;> exact he
  exact ⟨mem_nodes_addNode n (h e he2).1, mem_nodes_addNode n (h e he2).2⟩

theorem edgesWF_addEdge {g : Graph} (u v : String) (h : EdgesWF g) :
    EdgesWF (addEdge g u v) := by
  intro e he
  have hsplit : e ∈ g.edges ∨ e = (u, v) := by
    simp only [addEdge] at he
    split at he
    · exact Or.inl he
    · rcases List.mem_append.mp he with h1 | h1
      · exact Or.inl h1
      · exact Or.inr (List.mem_singleton.mp h1)
  rcases hsplit with h1 | h1
  · exact ⟨mem_nodes_addEdge u v (h e h1).1, mem_nodes_addEdge u v (h e h1).2⟩
  · subst h1
    exact ⟨left_mem_addEdge g u v, right_mem_addEdge g u v⟩

theorem create_edges_wf (instances : List InstanceRec)
    (connectors : List ConnectorRec) :
    EdgesWF (create_basic_lineage_graph instances connectors) := by
  unfold create_basic_lineage_graph
  have h1 : ∀ (l : List InstanceRec) (g : Graph), EdgesWF g →
      EdgesWF (l.foldl (fun g i => addNode g (instanceNode i)) g) := by
    intro l
    induction l with
    | nil => exact fun g h => h
    | cons i rest ih => exact fun g h => ih _ (edgesWF_addNode _ h)
  have h2 : ∀ (l : List ConnectorRec) (g : Graph), EdgesWF g →
      EdgesWF (l.foldl (fun g c => addEdge g (connFromNode c) (connToNode c)) g) := by
    intro l
    induction l with
    | nil => exact fun g h => h
    | cons c rest ih => exact fun g h => ih _ (edgesWF_addEdge _ _ h)
  exact h2 _ _ (h1 _ _ (by intro e he; cases he))

theorem subgraphOn_nodes_nodup {g : Graph} (c : List String)
    (h : g.nodes.Nodup) : (subgraphOn g c).nodes.Nodup :=
  List.Nodup.filter _ h

theorem subgraphOn_edges_wf {g : Graph} (c : List String) (h : EdgesWF g) :
    EdgesWF (subgraphOn g c) := by
  intro e he
  have h1 := List.mem_filter.mp he
  have h2 := h e h1.1
  have h3 : e.1 ∈ c ∧ e.2 ∈ c := by
    have h4 := h1.2
    rw [Bool.and_eq_true] at h4
    exact ⟨of_decide_eq_true h4.1, of_decide_eq_true h4.2⟩
  constructor
  · exact List.mem_filter.mpr ⟨h2.1, decide_eq_true h3.1⟩
  · exact List.mem_filter.mpr ⟨h2.2, decide_eq_true h3.2⟩

/-! ## Weak components form a partition -/

theorem mem_weakReach_iff {g : Graph} (hnd : g.nodes.Nodup) (n m : String) :
    m ∈ weakReach g n ↔ Star g.nodes (adjSym g) n m :=
  ⟨reachFrom_sound, reachFrom_complete hnd⟩

theorem self_mem_weakComponent {g : Graph} {n : String} (hn : n ∈ g.nodes) :
    n ∈ weakComponentOf g n := by
  apply List.mem_filter.mpr
  refine ⟨hn, decide_eq_true ?_⟩
  exact subset_closureIter _ _ _ _ (List.mem_singleton.mpr rfl)

theorem mem_weakComponent_nodes {g : Graph} {s n : String}
    (h : n ∈ weakComponentOf g s) : n ∈ g.nodes :=
  (List.mem_filter.mp h).1

theorem mem_weakComponent_star {g : Graph} {s n : String}
    (h : n ∈ weakComponentOf g s) : n ∈ weakReach g s :=
  of_decide_eq_true (List.mem_filter.mp h).2

/-- Membership in a weak component is an equivalence: any member
generates the same component. -/
theorem weakComponent_eq_of_mem {g : Graph} {s n : String}
    (hnd : g.nodes.Nodup) (hs : s ∈ g.nodes)
    (h : n ∈ weakComponentOf g s) :
    weakComponentOf g n = weakComponentOf g s := by
  have hsn : Star g.nodes (adjSym g) s n :=
    (mem_weakReach_iff hnd s n).mp (mem_weakComponent_star h)
  unfold weakComponentOf
  apply List.filter_congr
  intro m hm
  apply decide_eq_decide.mpr
  rw [mem_weakReach_iff hnd, mem_weakReach_iff hnd]
  constructor
  · intro hnm
    exact Star.trans hsn hnm
  · intro hsm
    have hns : Star g.nodes (adjSym g) n s := Star.symm_of_adjSym hs hsn
    exact Star.trans hns hsm

/-- The weakly-connected-component enumeration is a partition: every
component is generated by a node, every node lies in a component, and
distinct components are disjoint. -/
theorem wcc_spec (g : Graph) (hnd : g.nodes.Nodup) :
    (∀ comp ∈ weakly_connected_components g,
      ∃ s ∈ g.nodes, comp = weakComponentOf g s) ∧
    (∀ n ∈ g.nodes, ∃ comp ∈ weakly_connected_components g, n ∈ comp) ∧
    List.Pairwise (fun c1 c2 => ∀ x ∈ c1, x ∉ c2)
      (weakly_connected_components g) := by
  have hmain : ∀ (ns : List String)
      (st : List String × List (List String)),
      (∀ n ∈ ns, n ∈ g.nodes) →
      (∀ comp ∈ st.2, ∃ s ∈ g.nodes, comp = weakComponentOf g s) →
      (∀ x, x ∈ st.1 ↔ ∃ comp ∈ st.2, x ∈ comp) →
      List.Pairwise (fun c1 c2 => ∀ x ∈ c1, x ∉ c2) st.2 →
      (∀ comp ∈ (ns.foldl (fun st n =>
          if n ∈ st.1 then st
          else (st.1 ++ weakComponentOf g n, st.2 ++ [weakComponentOf g n])) st).2,
        ∃ s ∈ g.nodes, comp = weakComponentOf g s) ∧
      (∀ x, x ∈ (ns.foldl (fun st n =>
          if n ∈ st.1 then st
          else (st.1 ++ weakComponentOf g n, st.2 ++ [weakComponentOf g n])) st).1 ↔
        ∃ comp ∈ (ns.foldl (fun st n =>
          if n ∈ st.1 then st
          else (st.1 ++ weakComponentOf g n, st.2 ++ [weakComponentOf g n])) st).2,
          x ∈ comp) ∧
      List.Pairwise (fun c1 c2 => ∀ x ∈ c1, x ∉ c2)
        (ns.foldl (fun st n =>
          if n ∈ st.1 then st
          else (st.1 ++ weakComponentOf g n, st.2 ++ [weakComponentOf g n])) st).2 ∧
      (∀ n ∈ ns, ∃ comp ∈ (ns.foldl (fun st n =>
          if n ∈ st.1 then st
          else (st.1 ++ weakComponentOf g n, st.2 ++ [weakComponentOf g n])) st).2,
        n ∈ comp) := by
    intro ns
    induction ns with
    | nil =>
      intro st _ h1 h2 h3
      exact ⟨h1, h2, h3, by intro n hn; cases hn⟩
    | cons n rest ih =>
      intro st hns h1 h2 h3
      rw [List.foldl_cons]
      by_cases hn : n ∈ st.1
      · rw [if_pos hn]
        have hrest := ih st (fun m hm => hns m (List.mem_cons_of_mem _ hm)) h1 h2 h3
        refine ⟨hrest.1, hrest.2.1, hrest.2.2.1, ?_⟩
        intro m hm
        rcases List.mem_cons.mp hm with hm1 | hm1
        · subst hm1
          -- m is already covered; components only grow along the fold
          rcases (h2 m).mp hn with ⟨comp, hc1, hc2⟩
          have hmono : ∀ (l : List String)
              (st2 : List String × List (List String)),
              comp ∈ st2.2 → comp ∈ (l.foldl (fun st n =>
                if n ∈ st.1 then st
                else (st.1 ++ weakComponentOf g n,
                      st.2 ++ [weakComponentOf g n])) st2).2 := by
            intro l
            induction l with
            | nil => exact fun st2 h => h
            | cons a as iha =>
              intro st2 hc
              rw [List.foldl_cons]
              by_cases ha : a ∈ st2.1
              · rw [if_pos ha]
                exact iha st2 hc
              · rw [if_neg ha]
                exact iha _ (List.mem_append_left _ hc)
          exact ⟨comp, hmono rest st hc1, hc2⟩
        · exact hrest.2.2.2 m hm1
      · rw [if_neg hn]
        have hnnodes : n ∈ g.nodes := hns n (List.mem_cons_self _ _)
        -- invariants for the extended state
        have h1b : ∀ comp ∈ st.2 ++ [weakComponentOf g n],
            ∃ s ∈ g.nodes, comp = weakComponentOf g s := by
          intro comp hc
          rcases List.mem_append.mp hc with hc1 | hc1
          · exact h1 comp hc1
          · rcases List.mem_singleton.mp hc1 with h
            subst h
            exact ⟨n, hnnodes, rfl⟩
        have h2b : ∀ x, x ∈ st.1 ++ weakComponentOf g n ↔
            ∃ comp ∈ st.2 ++ [weakComponentOf g n], x ∈ comp := by
          intro x
          constructor
          · intro hx
            rcases List.mem_append.mp hx with hx1 | hx1
            · rcases (h2 x).mp hx1 with ⟨comp, hc1, hc2⟩
              exact ⟨comp, List.mem_append_left _ hc1, hc2⟩
            · exact ⟨weakComponentOf g n,
                List.mem_append_right _ (List.mem_singleton.mpr rfl), hx1⟩
          · intro ⟨comp, hc1, hc2⟩
            rcases List.mem_append.mp hc1 with hc3 | hc3
            · exact List.mem_append_left _ ((h2 x).mpr ⟨comp, hc3, hc2⟩)
            · rcases List.mem_singleton.mp hc3 with h
              subst h
              exact List.mem_append_right _ hc2
        have h3b : List.Pairwise (fun c1 c2 => ∀ x ∈ c1, x ∉ c2)
            (st.2 ++ [weakComponentOf g n]) := by
          rw [List.pairwise_append]
          refine ⟨h3, List.pairwise_singleton _ _, ?_⟩
          intro c1 hc1 c2 hc2 x hx1
          rcases List.mem_singleton.mp hc2 with h
          subst h
          intro hx2
          -- x in an old component and in the new one forces n already seen
          rcases h1 c1 hc1 with ⟨s, hs, hceq⟩
          have hsx : Star g.nodes (adjSym g) s x := by
            rw [hceq] at hx1
            exact (mem_weakReach_iff hnd s x).mp (mem_weakComponent_star hx1)
          have hnx : Star g.nodes (adjSym g) n x :=
            (mem_weakReach_iff hnd n x).mp (mem_weakComponent_star hx2)
          have hxnodes : x ∈ g.nodes := mem_weakComponent_nodes hx2
          have hxn : Star g.nodes (adjSym g) x n :=
            Star.symm_of_adjSym hnnodes hnx
          have hsn : Star g.nodes (adjSym g) s n := Star.trans hsx hxn
          have hninc1 : n ∈ c1 := by
            rw [hceq]
            apply List.mem_filter.mpr
            exact ⟨hnnodes, decide_eq_true ((mem_weakReach_iff hnd s n).mpr hsn)⟩
          exact hn ((h2 n).mpr ⟨c1, hc1, hninc1⟩)
        have hrest := ih (st.1 ++ weakComponentOf g n, st.2 ++ [weakComponentOf g n])
          (fun m hm => hns m (List.mem_cons_of_mem _ hm)) h1b h2b h3b
        refine ⟨hrest.1, hrest.2.1, hrest.2.2.1, ?_⟩
        intro m hm
        rcases List.mem_cons.mp hm with hm1 | hm1
        · subst hm1
          have hself : m ∈ weakComponentOf g m := self_mem_weakComponent hnnodes
          have hcov := (hrest.2.1 m).mp
          apply hcov
          have : m ∈ st.1 ++ weakComponentOf g m := List.mem_append_right _ hself
          -- the fold only grows the seen set
          have hmono : ∀ (l : List String)
              (st2 : List String × List (List String)),
              m ∈ st2.1 → m ∈ (l.foldl (fun st n =>
                if n ∈ st.1 then st
                else (st.1 ++ weakComponentOf g n,
                      st.2 ++ [weakComponentOf g n])) st2).1 := by
            intro l
            induction l with
            | nil => exact fun st2 h => h
            | cons a as iha =>
              intro st2 hc
              rw [List.foldl_cons]
              by_cases ha : a ∈ st2.1
              · rw [if_pos ha]
                exact iha st2 hc
              · rw [if_neg ha]
                exact iha _ (List.mem_append_left _ hc)
          exact hmono rest _ this
        · exact hrest.2.2.2 m hm1
  have h := hmain g.nodes ([], []) (fun n hn => hn)
    (by intro comp hc; cases hc)
    (by
      intro x
      constructor
      · intro hx; cases hx
      · intro ⟨comp, hc, _⟩; cases hc)
    List.Pairwise.nil
  exact ⟨h.1, fun n hn => h.2.2.2 n hn, h.2.2.1⟩

end NewStyle

namespace NewStyle

/-! ## Keys and values of the computed order maps -/

theorem lookup_setKV_isSome (l : List (String × Nat)) (k a : String) (v : Nat) :
    ((setKV l k v).lookup a).isSome ↔ (a = k ∨ (l.lookup a).isSome) := by
  by_cases hak : a = k
  · subst hak
    rw [lookup_setKV_self]
    simp
  · rw [lookup_setKV_ne _ _ hak]
    simp [hak]

theorem lplStep_is_setKV (sub : Graph) (sources : List String)
    (L : List (String × Nat)) (node : String) :
    ∃ val, lplStep sub sources L node = setKV L node val := by
  by_cases hs : node ∈ sources
  · exact ⟨0, lplStep_of_source L hs⟩
  · exact ⟨_, lplStep_of_nonsource L hs⟩

theorem lpl_fold_keys (sub : Graph) (sources : List String) :
    ∀ (rest : List String) (L : List (String × Nat)) (x : String),
    (((rest.foldl (lplStep sub sources) L).lookup x).isSome) ↔
      ((L.lookup x).isSome ∨ x ∈ rest) := by
  intro rest
  induction rest with
  | nil =>
    intro L x
    simp
  | cons node rest ih =>
    intro L x
    rw [List.foldl_cons]
    rcases lplStep_is_setKV sub sources L node with ⟨val, hval⟩
    rw [hval, ih]
    rw [lookup_setKV_isSome]
    constructor
    · intro h
      rcases h with (h | h) | h
      · subst h
        exact Or.inr (List.mem_cons_self _ _)
      · exact Or.inl h
      · exact Or.inr (List.mem_cons_of_mem _ h)
    · intro h
      rcases h with h | h
      · exact Or.inl (Or.inr h)
      · rcases List.mem_cons.mp h with h1 | h1
        · exact Or.inl (Or.inl h1)
        · exact Or.inr h1

theorem filter_mem_filter (l : List String) (p : String → Bool) :
    l.filter (fun n => decide (n ∈ l.filter p)) = l.filter p := by
  apply List.filter_congr
  intro x hx
  by_cases hpx : p x = true
  · rw [hpx]
    exact decide_eq_true (List.mem_filter.mpr ⟨hx, hpx⟩)
  · have hfx : p x = false := Bool.eq_false_iff.mpr hpx
    rw [hfx]
    apply decide_eq_false
    intro hmem
    exact hpx (List.mem_filter.mp hmem).2

/-- The subgraph induced on a weak component has exactly the component's
nodes, in order. -/
theorem subgraph_weakComponent_nodes (g : Graph) (s : String) :
    (subgraphOn g (weakComponentOf g s)).nodes = weakComponentOf g s := by
  unfold subgraphOn weakComponentOf
  exact filter_mem_filter g.nodes _

theorem mem_successors_nodes {sub : Graph} (he : EdgesWF sub) {c s : String}
    (h : s ∈ successors sub c) : s ∈ sub.nodes := by
  unfold successors at h
  rcases List.mem_map.mp h with ⟨e, he2, hee⟩
  rw [← hee]
  exact (he e (List.mem_filter.mp he2).1).2

theorem setKV_keys_sub {sub : Graph} {l : List (String × Nat)}
    (hl : ∀ k, ((l.lookup k).isSome) → k ∈ sub.nodes) {key : String}
    (hk : key ∈ sub.nodes) (v : Nat) :
    ∀ k, (((setKV l key v).lookup k).isSome) → k ∈ sub.nodes := by
  intro k h
  rcases (lookup_setKV_isSome l key k v).mp h with h1 | h1
  · subst h1; exact hk
  · exact hl k h1

theorem bfs_keys_sub (sub : Graph) (he : EdgesWF sub) :
    ∀ (fuel : Nat) (queue : List String) (levels : List (String × Nat))
      (visited : List String),
    (∀ k, ((levels.lookup k).isSome) → k ∈ sub.nodes) →
    ∀ k, (((bfsLevelsAux sub fuel queue levels visited).lookup k).isSome) →
      k ∈ sub.nodes := by
  intro fuel
  induction fuel with
  | zero =>
    intro queue levels visited hl k hk
    exact hl k hk
  | succ fuel ih =>
    intro queue levels visited hl k hk
    cases queue with
    | nil => exact hl k hk
    | cons current rest =>
      have hinner : ∀ (succs : List String)
          (st : List (String × Nat) × List String × List String),
          (∀ s2 ∈ succs, s2 ∈ sub.nodes) →
          (∀ k2, ((st.1.lookup k2).isSome) → k2 ∈ sub.nodes) →
          ∀ k2, (((succs.foldl
            (fun (st : List (String × Nat) × List String × List String) succ =>
              if succ ∈ st.2.2 then
                (setKV st.1 succ
                  (Nat.max (lookupD st.1 succ 0) (lookupD levels current 0 + 1)),
                 st.2.1, st.2.2)
              else
                (setKV st.1 succ (lookupD levels current 0 + 1),
                 st.2.1 ++ [succ], st.2.2 ++ [succ])) st).1.lookup k2).isSome) →
            k2 ∈ sub.nodes := by
        intro succs
        induction succs with
        | nil => exact fun st _ hst => hst
        | cons s2 ss ihs =>
          intro st hss hst
          rw [List.foldl_cons]
          by_cases hv : s2 ∈ st.2.2
          · rw [if_pos hv]
            exact ihs _ (fun x hx => hss x (List.mem_cons_of_mem _ hx))
              (setKV_keys_sub hst (hss s2 (List.mem_cons_self _ _)) _)
          · rw [if_neg hv]
            exact ihs _ (fun x hx => hss x (List.mem_cons_of_mem _ hx))
              (setKV_keys_sub hst (hss s2 (List.mem_cons_self _ _)) _)
      have hstep := hinner (successors sub current) (levels, rest, visited)
        (fun s2 hs2 => mem_successors_nodes he hs2) hl
      exact ih _ _ _ hstep k hk

theorem complexSources_sub_nodes (sub : Graph) :
    ∀ s ∈ complexSources sub, s ∈ sub.nodes := by
  intro s hs
  simp only [complexSources] at hs
  split at hs
  · exact (List.mem_filter.mp hs).1
  · exact (List.mem_filter.mp hs).1

theorem bfsLevels_keys_sub (sub : Graph) (he : EdgesWF sub)
    (sources : List String) (hsrc : ∀ s ∈ sources, s ∈ sub.nodes) :
    ∀ k, (((bfsLevels sub sources).lookup k).isSome) → k ∈ sub.nodes := by
  unfold bfsLevels
  apply bfs_keys_sub sub he
  have hinit : ∀ (srcs : List String) (l : List (String × Nat)),
      (∀ s ∈ srcs, s ∈ sub.nodes) →
      (∀ k, ((l.lookup k).isSome) → k ∈ sub.nodes) →
      ∀ k, (((srcs.foldl (fun l s => setKV l s 0) l).lookup k).isSome) →
        k ∈ sub.nodes := by
    intro srcs
    induction srcs with
    | nil => exact fun l _ hl => hl
    | cons s2 ss ih =>
      intro l hss hl
      rw [List.foldl_cons]
      exact ih _ (fun x hx => hss x (List.mem_cons_of_mem _ hx))
        (setKV_keys_sub hl (hss s2 (List.mem_cons_self _ _)) _)
  apply hinit sources [] hsrc
  intro k hk
  simp [List.lookup] at hk

theorem lookup_map_isSome (l : List (String × Nat)) (k : String) :
    (((l.map (fun nl => (nl.1, nl.2 + 1))).lookup k).isSome) ↔
      ((l.lookup k).isSome) := by
  rw [lookup_map_add_one]
  cases l.lookup k <;> simp

/-- Keys of the per-component orders lie in the component subgraph's node
set. -/
theorem cco_orders_keys (sub : Graph) (idx : Nat) (hnd : sub.nodes.Nodup)
    (he : EdgesWF sub) :
    ∀ k, (((calc_complex_order sub idx).1.lookup k).isSome) → k ∈ sub.nodes := by
  intro k hk
  rcases hls : calc_longest_path_levels sub (complexSources sub) with err | levels
  case error =>
    rw [show (calc_complex_order sub idx).1 =
        ((bfsLevels sub (complexSources sub)).map (fun nl => (nl.1, nl.2 + 1)))
      from by simp only [calc_complex_order, hls]] at hk
    rw [lookup_map_isSome] at hk
    exact bfsLevels_keys_sub sub he _ (complexSources_sub_nodes sub) k hk
  case ok =>
    rcases hts : topological_sort sub with _ | t
    · unfold calc_longest_path_levels at hls
      rw [hts] at hls
      cases hls
    · have hlevels : levels = longestPathLevelsFold sub (complexSources sub) t := by
        unfold calc_longest_path_levels at hls
        rw [hts] at hls
        injection hls with h
        exact h.symm
      rw [show (calc_complex_order sub idx).1 =
          (levels.map (fun nl => (nl.1, nl.2 + 1)))
        from by simp only [calc_complex_order, hls]] at hk
      rw [lookup_map_isSome, hlevels] at hk
      unfold longestPathLevelsFold at hk
      rcases (lpl_fold_keys sub (complexSources sub) t [] k).mp hk with h1 | h1
      · simp [List.lookup] at h1
      · exact ((topological_sort_spec hnd hts).1 k).mp h1

/-- Each per-component order is 1-based. -/
theorem cco_orders_pos (sub : Graph) (idx : Nat) :
    ∀ k v, (calc_complex_order sub idx).1.lookup k = some v → 1 ≤ v := by
  intro k v hk
  rcases hls : calc_longest_path_levels sub (complexSources sub) with err | levels
  case error =>
    rw [show (calc_complex_order sub idx).1 =
        ((bfsLevels sub (complexSources sub)).map (fun nl => (nl.1, nl.2 + 1)))
      from by simp only [calc_complex_order, hls]] at hk
    rw [lookup_map_add_one] at hk
    cases hlk : (bfsLevels sub (complexSources sub)).lookup k with
    | none => rw [hlk] at hk; cases hk
    | some l =>
      rw [hlk] at hk
      have h2 : some (l + 1) = some v := hk
      have h3 : l + 1 = v := by injection h2
      omega
  case ok =>
    rw [show (calc_complex_order sub idx).1 =
        (levels.map (fun nl => (nl.1, nl.2 + 1)))
      from by simp only [calc_complex_order, hls]] at hk
    rw [lookup_map_add_one] at hk
    cases hlk : levels.lookup k with
    | none => rw [hlk] at hk; cases hk
    | some l =>
      rw [hlk] at hk
      have h2 : some (l + 1) = some v := hk
      have h3 : l + 1 = v := by injection h2
      omega

end NewStyle

namespace NewStyle

/-! ## The transformation-order map as a concatenation of per-component
order maps -/

/-- The order entries contributed by one weakly-connected component
(orders do not depend on the component index, which only enters the
labels). -/
def compOrders (g : Graph) (comp : List String) : List (String × Nat) :=
  match comp with
  | [n] => [(n, 0)]
  | _ => (calc_complex_order (subgraphOn g comp) 0).1

theorem cco_orders_idx (sub : Graph) (idx : Nat) :
    (calc_complex_order sub idx).1 = (calc_complex_order sub 0).1 := by
  rcases hls : calc_longest_path_levels sub (complexSources sub) with err | levels
  · simp only [calc_complex_order, hls]
  · simp only [calc_complex_order, hls]

theorem ctorder_fold_orders (g : Graph) :
    ∀ (comps : List (List String))
      (st : Nat × List (String × Nat) × List (String × String)),
    (comps.foldl
      (fun (st : Nat × List (String × Nat) × List (String × String)) comp =>
        match comp with
        | [n] =>
          (st.1 + 1, st.2.1 ++ [(n, 0)],
           st.2.2 ++ [(n, "isolated_" ++ toString st.1)])
        | _ =>
          let res := calc_complex_order (subgraphOn g comp) st.1
          (st.1 + 1, st.2.1 ++ res.1, st.2.2 ++ res.2)) st).2.1
    = st.2.1 ++ (comps.map (fun c => compOrders g c)).flatten := by
  intro comps
  induction comps with
  | nil =>
    intro st
    simp
  | cons comp rest ih =>
    intro st
    rw [List.foldl_cons, List.map_cons, List.flatten_cons]
    rcases comp with _ | ⟨x, _ | ⟨y, tail⟩⟩
    · rw [ih]
      show (st.2.1 ++ (calc_complex_order (subgraphOn g []) st.1).1) ++ _ = _
      rw [cco_orders_idx, List.append_assoc]
      rfl
    · rw [ih]
      show (st.2.1 ++ [(x, 0)]) ++ _ = _
      rw [List.append_assoc]
      rfl
    · rw [ih]
      show (st.2.1 ++ (calc_complex_order (subgraphOn g (x :: y :: tail)) st.1).1) ++ _ = _
      rw [cco_orders_idx, List.append_assoc]
      rfl

theorem lookup_append_some {l1 l2 : List (String × Nat)} {k : String} {v : Nat}
    (h : l1.lookup k = some v) : (l1 ++ l2).lookup k = some v := by
  induction l1 with
  | nil => cases h
  | cons p t ih =>
    rcases p with ⟨a, b⟩
    by_cases hak : k = a
    · subst hak
      simp [List.lookup] at h ⊢
      exact h
    · have h2 : (k == a) = false := by simp [hak]
      simp only [List.cons_append, List.lookup, h2] at h ⊢
      exact ih h

theorem lookup_append_none {l1 l2 : List (String × Nat)} {k : String}
    (h : l1.lookup k = none) : (l1 ++ l2).lookup k = l2.lookup k := by
  induction l1 with
  | nil => rfl
  | cons p t ih =>
    rcases p with ⟨a, b⟩
    by_cases hak : k = a
    · subst hak
      simp [List.lookup] at h
    · have h2 : (k == a) = false := by simp [hak]
      simp only [List.cons_append, List.lookup, h2] at h ⊢
      exact ih h

theorem lookup_join_none {n : String} :
    ∀ (segs : List (List (String × Nat))),
    (∀ s ∈ segs, s.lookup n = none) → segs.flatten.lookup n = none := by
  intro segs
  induction segs with
  | nil => intro _; rfl
  | cons s rest ih =>
    intro h
    rw [List.flatten_cons, lookup_append_none (h s (List.mem_cons_self _ _))]
    exact ih (fun s2 hs2 => h s2 (List.mem_cons_of_mem _ hs2))

/-- Looking up a node in the concatenated per-component orders finds
exactly its own component's entry. -/
theorem lookup_join_comps (g : Graph) (n : String) :
    ∀ (comps : List (List String)) (C : List String),
    C ∈ comps → n ∈ C →
    (∀ c ∈ comps, ∀ k, ((compOrders g c).lookup k).isSome → k ∈ c) →
    List.Pairwise (fun c1 c2 => ∀ x ∈ c1, x ∉ c2) comps →
    (comps.map (fun c => compOrders g c)).flatten.lookup n
      = (compOrders g C).lookup n := by
  intro comps
  induction comps with
  | nil =>
    intro C hC
    cases hC
  | cons c rest ih =>
    intro C hC hnC hkeys hpw
    rw [List.map_cons, List.flatten_cons]
    have hpw2 := List.pairwise_cons.mp hpw
    rcases List.mem_cons.mp hC with hC1 | hC1
    · subst hC1
      cases hcl : (compOrders g C).lookup n with
      | some v => exact lookup_append_some hcl
      | none =>
        rw [lookup_append_none hcl]
        apply lookup_join_none
        intro seg hseg
        rcases List.mem_map.mp hseg with ⟨c2, hc2, hc2e⟩
        subst hc2e
        cases hlk : (compOrders g c2).lookup n with
        | none => rfl
        | some v =>
          exfalso
          have hn2 : n ∈ c2 := hkeys c2 (List.mem_cons_of_mem _ hc2) n
            (by rw [hlk]; rfl)
          exact hpw2.1 c2 hc2 n hnC hn2
    · have hnc : n ∉ c := fun hx => hpw2.1 C hC1 n hx hnC
      have hcl : (compOrders g c).lookup n = none := by
        cases hlk : (compOrders g c).lookup n with
        | none => rfl
        | some v =>
          exact absurd (hkeys c (List.mem_cons_self _ _) n (by rw [hlk]; rfl)) hnc
      rw [lookup_append_none hcl]
      exact ih C hC1 hnC
        (fun c2 hc2 => hkeys c2 (List.mem_cons_of_mem _ hc2)) hpw2.2

end NewStyle

namespace NewStyle

/-! ## C6: exported level 0 and the 1-based component levels -/

theorem lookup_singleton_isSome {n k : String} {v : Nat}
    (h : (([(n, v)] : List (String × Nat)).lookup k).isSome) : k = n := by
  by_cases hkn : k = n
  · exact hkn
  · exfalso
    have h2 : (k == n) = false := by simp [hkn]
    simp [List.lookup, h2] at h

/-- C6 amended: in the exported map of `_calculate_transformation_order`
(whose trailing `unconnected` loop is inert in the pipeline, the logic
cache being populated only afterwards), a graph node has level `0` iff
its weakly-connected component is a singleton; and a node of a larger
component *whose level computation succeeds* (acyclic component) receives
exactly its internal longest-path level plus one. Nodes of cyclic
components that the BFS fallback never reaches receive no level at all,
which is what the counterexample exhibits. -/
theorem C6_amended_levels (instances : List InstanceRec)
    (connectors : List ConnectorRec) :
    ∀ n ∈ (create_basic_lineage_graph instances connectors).nodes,
      ((calc_transformation_order instances connectors []).1.lookup n = some 0 ↔
        (weakComponentOf (create_basic_lineage_graph instances connectors) n).length
          = 1) ∧
      (∀ levels,
        calc_longest_path_levels
          (subgraphOn (create_basic_lineage_graph instances connectors)
            (weakComponentOf (create_basic_lineage_graph instances connectors) n))
          (complexSources (subgraphOn (create_basic_lineage_graph instances connectors)
            (weakComponentOf (create_basic_lineage_graph instances connectors) n)))
          = .ok levels →
        2 ≤ (weakComponentOf (create_basic_lineage_graph instances connectors) n).length →
        ∃ l, levels.lookup n = some l ∧
          (calc_transformation_order instances connectors []).1.lookup n
            = some (l + 1)) := by
  intro n hn
  have hnd := create_nodes_nodup instances connectors
  have he := create_edges_wf instances connectors
  obtain ⟨hcomps, hcover, hpw⟩ :=
    wcc_spec (create_basic_lineage_graph instances connectors) hnd
  obtain ⟨C, hCmem, hnC⟩ := hcover n hn
  obtain ⟨s, hs, hCeq⟩ := hcomps C hCmem
  have hCn : weakComponentOf (create_basic_lineage_graph instances connectors) n
      = C := by
    rw [hCeq]
    apply weakComponent_eq_of_mem hnd hs
    rw [← hCeq]
    exact hnC
  -- key sets of per-component orders
  have hkeys : ∀ c ∈ weakly_connected_components
      (create_basic_lineage_graph instances connectors),
      ∀ k, ((compOrders (create_basic_lineage_graph instances connectors) c).lookup
        k).isSome → k ∈ c := by
    intro c hc k hk
    obtain ⟨s2, _, hceq⟩ := hcomps c hc
    rcases c with _ | ⟨x, _ | ⟨y, tail⟩⟩
    · have hk2 : k ∈ (subgraphOn (create_basic_lineage_graph instances connectors)
          ([] : List String)).nodes :=
        cco_orders_keys _ 0 (subgraphOn_nodes_nodup _ hnd)
          (subgraphOn_edges_wf _ he) k hk
      rw [hceq] at hk2 ⊢
      rw [subgraph_weakComponent_nodes] at hk2
      exact hk2
    · have hkx : k = x := lookup_singleton_isSome hk
      subst hkx
      exact List.mem_singleton.mpr rfl
    · have hk2 : k ∈ (subgraphOn (create_basic_lineage_graph instances connectors)
          (x :: y :: tail)).nodes :=
        cco_orders_keys _ 0 (subgraphOn_nodes_nodup _ hnd)
          (subgraphOn_edges_wf _ he) k hk
      rw [hceq] at hk2 ⊢
      rw [subgraph_weakComponent_nodes] at hk2
      exact hk2
  -- the exported map is the concatenation of per-component orders
  have hres0 := ctorder_fold_orders (create_basic_lineage_graph instances connectors)
    (weakly_connected_components (create_basic_lineage_graph instances connectors))
    (0, ([], []))
  have hres : (calc_transformation_order instances connectors []).1
      = ((weakly_connected_components
          (create_basic_lineage_graph instances connectors)).map
          (fun c => compOrders (create_basic_lineage_graph instances connectors) c)).flatten := by
    have h2 : (calc_transformation_order instances connectors []).1
        = ([] : List (String × Nat)) ++
          ((weakly_connected_components
            (create_basic_lineage_graph instances connectors)).map
            (fun c => compOrders (create_basic_lineage_graph instances connectors) c)).flatten :=
      hres0
    rw [List.nil_append] at h2
    exact h2
  have hlook : (calc_transformation_order instances connectors []).1.lookup n
      = (compOrders (create_basic_lineage_graph instances connectors) C).lookup n := by
    rw [hres]
    exact lookup_join_comps _ n _ C hCmem hnC hkeys hpw
  constructor
  · -- level 0 iff singleton component
    constructor
    · intro h0
      rw [hlook] at h0
      rw [hCn]
      rcases C with _ | ⟨x, _ | ⟨y, tail⟩⟩
      · cases hnC
      · rfl
      · exfalso
        have := cco_orders_pos
          (subgraphOn (create_basic_lineage_graph instances connectors)
            (x :: y :: tail)) 0 n 0 h0
        omega
    · intro hlen
      rw [hCn] at hlen
      rcases List.length_eq_one.mp hlen with ⟨x, hx⟩
      subst hx
      rcases List.mem_singleton.mp hnC with h
      subst h
      rw [hlook]
      simp [compOrders, List.lookup]
  · -- larger acyclic component: internal level plus one
    intro levels hlev hlen2
    rw [hCn] at hlev hlen2
    rcases C with _ | ⟨x, _ | ⟨y, tail⟩⟩
    · cases hnC
    · simp at hlen2
    · -- extract the successful topological sort
      rcases hts : topological_sort
          (subgraphOn (create_basic_lineage_graph instances connectors)
            (x :: y :: tail)) with _ | t
      · unfold calc_longest_path_levels at hlev
        rw [hts] at hlev
        cases hlev
      · have hlevels : levels = longestPathLevelsFold
            (subgraphOn (create_basic_lineage_graph instances connectors)
              (x :: y :: tail))
            (complexSources (subgraphOn
              (create_basic_lineage_graph instances connectors) (x :: y :: tail))) t := by
          unfold calc_longest_path_levels at hlev
          rw [hts] at hlev
          injection hlev with h
          exact h.symm
        have hsubnodes : (subgraphOn (create_basic_lineage_graph instances connectors)
            (x :: y :: tail)).nodes = x :: y :: tail := by
          rw [hCeq]
          exact subgraph_weakComponent_nodes _ _
        have hnsub : n ∈ (subgraphOn (create_basic_lineage_graph instances connectors)
            (x :: y :: tail)).nodes := by
          rw [hsubnodes]
          exact hnC
        have hnsub2 := (topological_sort_spec (subgraphOn_nodes_nodup _ hnd) hts).1 n
        have hnt : n ∈ t := hnsub2.mpr hnsub
        have hsome : ((levels.lookup n).isSome) := by
          rw [hlevels]
          unfold longestPathLevelsFold
          rw [lpl_fold_keys]
          exact Or.inr hnt
        rcases Option.isSome_iff_exists.mp hsome with ⟨l, hl⟩
        refine ⟨l, hl, ?_⟩
        rw [hlook]
        show ((calc_complex_order (subgraphOn
          (create_basic_lineage_graph instances connectors) (x :: y :: tail)) 0).1.lookup n)
          = some (l + 1)
        rw [show (calc_complex_order (subgraphOn
            (create_basic_lineage_graph instances connectors) (x :: y :: tail)) 0).1
            = (levels.map (fun nl => (nl.1, nl.2 + 1)))
          from by simp only [calc_complex_order, hlev]]
        rw [lookup_map_add_one, hl]
        rfl

/-- Counterexample input for C6: a doubly-linked triangle `E, F, G` (all
six arcs), a two-cycle `X ⇄ Y`, and an edge `E → X`; the only
minimum-in-degree node is `Y`, and the BFS fallback never reaches `E`,
`F`, or `G`. -/
def kInstances : List InstanceRec :=
  [⟨"E", ""⟩, ⟨"F", ""⟩, ⟨"G", ""⟩, ⟨"X", ""⟩, ⟨"Y", ""⟩]

def kConnectors : List ConnectorRec :=
  [⟨"f", "E", "", "f", "F", ""⟩, ⟨"f", "F", "", "f", "E", ""⟩,
   ⟨"f", "E", "", "f", "G", ""⟩, ⟨"f", "G", "", "f", "E", ""⟩,
   ⟨"f", "F", "", "f", "G", ""⟩, ⟨"f", "G", "", "f", "F", ""⟩,
   ⟨"f", "X", "", "f", "Y", ""⟩, ⟨"f", "Y", "", "f", "X", ""⟩,
   ⟨"f", "E", "", "f", "X", ""⟩]

/-- C6 counterexample: node `E` lies in a five-node weakly-connected
component yet receives *no* entry in the exported level map — the cyclic
component's BFS fallback only assigns levels to nodes reachable from the
chosen minimum-in-degree sources. -/
theorem C6_counterexample :
    "E" ∈ (create_basic_lineage_graph kInstances kConnectors).nodes ∧
    (weakComponentOf (create_basic_lineage_graph kInstances kConnectors) "E").length
      = 5 ∧
    (calc_transformation_order kInstances kConnectors []).1.lookup "E" = none := by
  decide

/-- Witness for the amended C6 at the two-node chain `A → B`. -/
theorem C6_amended_witness :
    ∃ l, ([("A", 0), ("B", 1)] : List (String × Nat)).lookup "A" = some l ∧
      (calc_transformation_order chainInstances chainConnectors []).1.lookup "A"
        = some (l + 1) :=
  (C6_amended_levels chainInstances chainConnectors "A" (by decide)).2
    [("A", 0), ("B", 1)] (by rfl) (by decide)

end NewStyle

namespace Lineage

/-! ## Data model of `fixed_lineage_maker.py`

The embedding works over the parsed framework state
(`FixedInformaticaLineageFramework` after `parse_mapping`): Python dicts
are association lists with first-match lookup, `self.instances` keeps per
instance only the `@TRANSFORMATION_TYPE` attribute consulted by
`is_lineage_source` (defaulting to `""` when absent, as `.get` does). -/

structure TransformationField where
  name : String
  datatype : String := ""
  precision : String := ""
  scale : String := ""
  expression : String := ""
deriving DecidableEq

structure Transformation where
  name : String
  type : String
  fields : List TransformationField := []
  attributes : List (String × String) := []
deriving DecidableEq

structure Connection where
  from_instance : String
  from_field : String
  to_instance : String
  to_field : String
deriving DecidableEq

structure LineageRecord where
  target_table : String
  target_column : String
  target_datatype : String
  source_table : String
  source_column : String
  source_datatype : String
  transformation_path : String
  transformation_logic : String
  transformation_count : Nat
  direct_source : Bool
deriving DecidableEq

structure Framework where
  transformations : List (String × Transformation) := []
  connections : List Connection := []
  instances : List (String × String) := []
  sources : List String := []
  targets : List String := []
deriving DecidableEq

/-- `is_lineage_source`: declared source, `SQ_` prefix, `SEQ_`/`Sequence`
substring, a `Source`/`Sequence`-like instance transformation type, a
`Source Qualifier`/`Sequence Generator` transformation, or an
`Expression` transformation with no incoming connection. -/
def is_lineage_source (fw : Framework) (instance_name : String) : Bool :=
  if instance_name ∈ fw.sources then true
  else if strStarts instance_name "SQ_" then true
  else if strContains instance_name "SEQ_" || strContains instance_name "Sequence" then
    true
  else if (match fw.instances.lookup instance_name with
    | some transType =>
      strContains transType "Source" || strContains transType "Sequence"
    | none => false) then true
  else
    match fw.transformations.lookup instance_name with
    | some tr =>
      if tr.type = "Source Qualifier" ∨ tr.type = "Sequence Generator" then
        true
      else if tr.type = "Expression" then
        !(fw.connections.any (fun conn => decide (conn.to_instance = instance_name)))
      else false
    | none => false

/-- Truncation applied to long expressions and conditions
(`expr[:97] + "..."` when longer than 100 characters). -/
def truncate100 (s : String) : String :=
  if strLen s > 100 then strTakeChars s 97 ++ "..." else s

/-- `get_transformation_logic`. -/
def get_transformation_logic (fw : Framework) (trans_name field_name : String) :
    String :=
  match fw.transformations.lookup trans_name with
  | none => "Type: Unknown (" ++ trans_name ++ ")"
  | some tr =>
    let parts : List String :=
      if tr.type = "Expression" ∧ field_name ≠ "" then
        match tr.fields.find? (fun f =>
          decide (f.name = field_name) && decide (f.expression ≠ "")) with
        | some f => ["Expression: " ++ truncate100 f.expression]
        | none => []
      else if tr.type = "Lookup Procedure" then
        (match tr.attributes.lookup "Lookup table name" with
         | some v => ["Table: " ++ v]
         | none => []) ++
        (match tr.attributes.lookup "Lookup condition" with
         | some v => ["Condition: " ++ truncate100 v]
         | none => [])
      else if tr.type = "Filter" then
        match tr.attributes.lookup "Filter Condition" with
        | some v => ["Condition: " ++ truncate100 v]
        | none => []
      else []
    String.intercalate " | " (("Type: " ++ tr.type) :: parts)

/-- `_get_field_datatype`. -/
def get_field_datatype (fw : Framework) (instance_name field_name : String) :
    String :=
  match fw.transformations.lookup instance_name with
  | some tr =>
    match tr.fields.find? (fun f => decide (f.name = field_name)) with
    | some f =>
      if f.precision ≠ "" then
        f.datatype ++ "(" ++ f.precision ++
          (if f.scale ≠ "" ∧ f.scale ≠ "0" then "," ++ f.scale else "") ++ ")"
      else f.datatype
    | none => "Unknown"
  | none => "Unknown"

/-- A BFS work item: `(instance, field, path, logic_path, depth)`. -/
structure Tup where
  inst : String
  fld : String
  path : List String
  logicPath : List String
  depth : Nat
deriving DecidableEq

/-- The (string-typed, hence potentially colliding, exactly as in the
source) visited-set key `f"{instance}.{field}.{depth}"`. -/
def visitKey (t : Tup) : String :=
  t.inst ++ "." ++ t.fld ++ "." ++ toString t.depth

/-- The record emitted when a lineage source is reached: reversed path,
reversed concatenated logic, hop count and direct flag both derived from
the accumulated path length. -/
def mkRecord (fw : Framework) (target_instance target_field : String) (t : Tup) :
    LineageRecord :=
  { target_table := strReplace target_instance "Shortcut_to_" ""
    target_column := target_field
    target_datatype := get_field_datatype fw target_instance target_field
    source_table := strReplace (strReplace t.inst "Shortcut_to_" "") "SQ_" ""
    source_column := t.fld
    source_datatype := get_field_datatype fw t.inst t.fld
    transformation_path := String.intercalate " -> " (t.path ++ [t.inst]).reverse
    transformation_logic := String.intercalate " | " t.logicPath.reverse
    transformation_count := t.path.length
    direct_source := t.path.length == 0 }

/-- Expansion rule (a): reverse-graph connections feeding this exact
`(instance, field)`. -/
def ruleDirect (fw : Framework) (t : Tup) : List Tup :=
  (fw.connections.filter (fun c =>
    decide (c.to_instance = t.inst) && decide (c.to_field = t.fld))).map
    (fun c =>
      let logic := get_transformation_logic fw t.inst t.fld
      { inst := c.from_instance, fld := c.from_field,
        path := t.path ++ [t.inst],
        logicPath := if logic ≠ "" then t.logicPath ++ [logic] else t.logicPath,
        depth := t.depth + 1 })

/-- Expansion rule (b): fields of the same Expression transformation
whose expression text contains the current field name. -/
def ruleExprField (fw : Framework) (t : Tup) : List Tup :=
  match fw.transformations.lookup t.inst with
  | some tr =>
    if tr.type = "Expression" then
      (tr.fields.filter (fun f =>
        decide (f.expression ≠ "") && strContains f.expression t.fld)).map
        (fun f =>
          { inst := t.inst, fld := f.name,
            path := t.path ++ [t.inst],
            logicPath := t.logicPath ++ ["Expression: " ++ f.expression],
            depth := t.depth + 1 })
    else []
  | none => []

/-- Expansion rule (c): inbound connections whose source field name
appears inside the expression of the field matching the current field. -/
def ruleExprConn (fw : Framework) (t : Tup) : List Tup :=
  fw.connections.flatMap (fun conn =>
    if conn.to_instance = t.inst then
      match fw.transformations.lookup t.inst with
      | some tr =>
        if tr.type = "Expression" then
          (tr.fields.filter (fun f =>
            decide (f.name = t.fld) && decide (f.expression ≠ "") &&
            strContains f.expression conn.from_field)).map
            (fun _f =>
              { inst := conn.from_instance, fld := conn.from_field,
                path := t.path ++ [t.inst],
                logicPath := t.logicPath ++ ["Expression: " ++ _f.expression],
                depth := t.depth + 1 })
        else []
      | none => []
    else [])

/-- One dequeued work item of `trace_lineage`: a lineage source emits its
record and stops; otherwise the three expansion rules run in order. -/
def processTuple (fw : Framework) (target_instance target_field : String)
    (t : Tup) : List LineageRecord × List Tup :=
  if is_lineage_source fw t.inst then
    ([mkRecord fw target_instance target_field t], [])
  else
    ([], ruleDirect fw t ++ ruleExprField fw t ++ ruleExprConn fw t)

/-- The `while queue` loop of `trace_lineage`, with explicit fuel; `none`
would mean the fuel bound was insufficient (shown below never to
happen). Items beyond `max_depth` or with a visited key are dropped. -/
def traceAux (fw : Framework) (ti tf : String) (maxDepth : Nat) :
    Nat → List Tup → List String → List LineageRecord →
    Option (List LineageRecord)
  | _, [], _, acc => some acc
  | 0, _ :: _, _, _ => none
  | fuel + 1, t :: rest, visited, acc =>
    if t.depth > maxDepth then traceAux fw ti tf maxDepth fuel rest visited acc
    else if visitKey t ∈ visited then traceAux fw ti tf maxDepth fuel rest visited acc
    else
      traceAux fw ti tf maxDepth fuel
        (rest ++ (processTuple fw ti tf t).2)
        (visitKey t :: visited)
        (acc ++ (processTuple fw ti tf t).1)

/-- Instances that can ever appear in the queue: the traced target and
connection sources. -/
def instUniv (fw : Framework) (ti : String) : List String :=
  ti :: fw.connections.map (fun c => c.from_instance)

/-- Fields that can ever appear in the queue: the traced field,
connection source fields, and transformation field names. -/
def fldUniv (fw : Framework) (tf : String) : List String :=
  tf :: fw.connections.map (fun c => c.from_field) ++
    fw.transformations.flatMap (fun p => p.2.fields.map (fun f => f.name))

/-- All visited-set keys that can ever be inserted. -/
def keyUniv (fw : Framework) (ti tf : String) (maxDepth : Nat) : List String :=
  (instUniv fw ti).flatMap (fun i =>
    (fldUniv fw tf).flatMap (fun f =>
      (List.range (maxDepth + 2)).map (fun d =>
        i ++ "." ++ f ++ "." ++ toString d)))

def totalFields (fw : Framework) : Nat :=
  (fw.transformations.map (fun p => p.2.fields.length)).sum

/-- Bound on the number of items one dequeue can enqueue. -/
def stepBound (fw : Framework) : Nat :=
  fw.connections.length + totalFields fw +
    fw.connections.length * totalFields fw

/-- Sufficient fuel for the whole trace: one unit per queue entry, at
most `stepBound + 1` entries per distinct visited key. -/
def traceFuel (fw : Framework) (ti tf : String) (maxDepth : Nat) : Nat :=
  (keyUniv fw ti tf maxDepth).dedup.length * (stepBound fw + 1) + 1

/-- `trace_lineage` (default `max_depth = 20`). -/
def trace_lineage (fw : Framework) (target_instance target_field : String)
    (maxDepth : Nat := 20) : Option (List LineageRecord) :=
  traceAux fw target_instance target_field maxDepth
    (traceFuel fw target_instance target_field maxDepth)
    [⟨target_instance, target_field, [], [], 0⟩] [] []

end Lineage

namespace Lineage

/-! ## C4: a direct connector does not yield `direct_source = True` -/

/-- The scenario input of C4: Expression transformation `E` with field
`A` whose expression text is `"B + C"` and a plain field `B`; a declared
source `S` supplies `E.B` directly through a connector. -/
def fwC4 : Framework :=
  { transformations :=
      [("E", { name := "E", type := "Expression",
               fields := [{ name := "A", expression := "B + C" },
                          { name := "B" }] })]
    connections := [{ from_instance := "S", from_field := "B",
                      to_instance := "E", to_field := "B" }]
    instances := [("S", "Source Definition"), ("E", "Expression")]
    sources := ["S"]
    targets := ["T"] }

/-- The record actually produced for the direct connector: hop count `1`
and `direct_source = false`, because following the connector appends the
traced target instance itself to the path. -/
def c4DirectRecord : LineageRecord :=
  { target_table := "E", target_column := "B", target_datatype := ""
    source_table := "S", source_column := "B", source_datatype := "Unknown"
    transformation_path := "S -> E"
    transformation_logic := "Type: Expression"
    transformation_count := 1, direct_source := false }

def c4TextualRecord : LineageRecord :=
  { target_table := "E", target_column := "B", target_datatype := ""
    source_table := "S", source_column := "B", source_datatype := "Unknown"
    transformation_path := "S -> E -> E"
    transformation_logic := "Expression: B + C | Expression: B + C"
    transformation_count := 2, direct_source := false }

set_option maxRecDepth 8192 in
/-- C4 counterexample: tracing `(E, B)` yields exactly two records — the
direct-connector one and the textual-match one — and *neither* has
`direct_source = True` or hop count `0`; the direct connector's record
has hop count `1`. -/
theorem C4_counterexample :
    trace_lineage fwC4 "E" "B" 20 = some [c4DirectRecord, c4TextualRecord] ∧
    ([c4DirectRecord, c4TextualRecord].all
      (fun r => !r.direct_source && decide (1 ≤ r.transformation_count))) = true := by
  constructor
  · rfl
  · decide

set_option maxRecDepth 8192 in
/-- C4 amended: the connector supplying `B` directly is reported, but
with `direct_source = False` and hop count `1` (the path already holds
the traced target instance); the textual-match rule fires independently
and contributes its own record. -/
theorem C4_amended_direct_connector :
    ∃ res, trace_lineage fwC4 "E" "B" 20 = some res ∧
      c4DirectRecord ∈ res ∧
      c4DirectRecord.direct_source = false ∧
      c4DirectRecord.transformation_count = 1 :=
  ⟨[c4DirectRecord, c4TextualRecord], by rfl, by decide, by decide, by decide⟩

/-! ## C10: `direct_source` agrees with a zero hop count -/

theorem mkRecord_flag (fw : Framework) (ti tf : String) (t : Tup) :
    ((mkRecord fw ti tf t).direct_source = true ↔
      (mkRecord fw ti tf t).transformation_count = 0) := by
  show ((t.path.length == 0) = true ↔ t.path.length = 0)
  simp

theorem processTuple_records_flag (fw : Framework) (ti tf : String) (t : Tup) :
    ∀ r ∈ (processTuple fw ti tf t).1,
      (r.direct_source = true ↔ r.transformation_count = 0) := by
  intro r hr
  unfold processTuple at hr
  split at hr
  · rcases List.mem_singleton.mp hr with h
    subst h
    exact mkRecord_flag fw ti tf t
  · cases hr

theorem traceAux_records_flag (fw : Framework) (ti tf : String) (maxDepth : Nat) :
    ∀ (fuel : Nat) (queue : List Tup) (visited : List String)
      (acc res : List LineageRecord),
    (∀ r ∈ acc, (r.direct_source = true ↔ r.transformation_count = 0)) →
    traceAux fw ti tf maxDepth fuel queue visited acc = some res →
    ∀ r ∈ res, (r.direct_source = true ↔ r.transformation_count = 0) := by
  intro fuel
  induction fuel with
  | zero =>
    intro queue visited acc res hacc ht
    cases queue with
    | nil =>
      have h2 : res = acc := by
        simp only [traceAux] at ht
        injection ht with h
        exact h.symm
      subst h2
      exact hacc
    | cons t rest =>
      simp only [traceAux] at ht
      exact Option.noConfusion ht
  | succ fuel ih =>
    intro queue visited acc res hacc ht
    cases queue with
    | nil =>
      have h2 : res = acc := by
        simp only [traceAux] at ht
        injection ht with h
        exact h.symm
      subst h2
      exact hacc
    | cons t rest =>
      simp only [traceAux] at ht
      by_cases hd : t.depth > maxDepth
      · rw [if_pos hd] at ht
        exact ih rest visited acc res hacc ht
      · rw [if_neg hd] at ht
        by_cases hv : visitKey t ∈ visited
        · rw [if_pos hv] at ht
          exact ih rest visited acc res hacc ht
        · rw [if_neg hv] at ht
          apply ih _ _ _ res _ ht
          intro r hr
          rcases List.mem_append.mp hr with h1 | h1
          · exact hacc r h1
          · exact processTuple_records_flag fw ti tf t r h1

/-- C10: every record returned by `trace_lineage` has
`direct_source = True` exactly when its hop count is zero — both fields
are derived from the length of the accumulated path. -/
theorem C10_direct_source_iff_zero_count (fw : Framework) (ti tf : String)
    (maxDepth : Nat) (res : List LineageRecord)
    (h : trace_lineage fw ti tf maxDepth = some res) :
    ∀ r ∈ res, (r.direct_source = true ↔ r.transformation_count = 0) :=
  traceAux_records_flag fw ti tf maxDepth _ _ _ _ res
    (by intro r hr; cases hr) h

set_option maxRecDepth 8192 in
/-- Witness for C10 at the C4 scenario input. -/
theorem C10_witness :
    (c4DirectRecord.direct_source = true ↔
      c4DirectRecord.transformation_count = 0) :=
  C10_direct_source_iff_zero_count fwC4 "E" "B" 20
    [c4DirectRecord, c4TextualRecord] (by rfl) c4DirectRecord (by decide)

end Lineage

namespace Lineage

/-! ## C7: the lineage-source test and emit-and-stop behaviour -/

/-- The spec's wording of the source test, as a second definition to be
compared with the code's `is_lineage_source`: a declared source instance,
a source-qualifier or sequence-generator naming pattern (`SQ_` prefix,
`SEQ_`/`Sequence` substring), a source- or sequence-like type pattern (in
the instance's transformation-type attribute or the transformation's
declared type), or an Expression-type transformation with zero incoming
connectors. -/
def specLineageSource (fw : Framework) (n : String) : Bool :=
  decide (n ∈ fw.sources) ||
  strStarts n "SQ_" || strContains n "SEQ_" || strContains n "Sequence" ||
  (match fw.instances.lookup n with
   | some ty => strContains ty "Source" || strContains ty "Sequence"
   | none => false) ||
  (match fw.transformations.lookup n with
   | some tr =>
     decide (tr.type = "Source Qualifier") || decide (tr.type = "Sequence Generator")
   | none => false) ||
  (match fw.transformations.lookup n with
   | some tr =>
     decide (tr.type = "Expression") &&
       !(fw.connections.any (fun c => decide (c.to_instance = n)))
   | none => false)

/-- C7: the code's source test coincides with the spec's disjunction, and
on a source match `trace_lineage`'s per-item step emits exactly one
record — carrying the full reversed path and the concatenated logic — and
enqueues nothing (the branch stops expanding). -/
theorem C7_source_test_and_emit (fw : Framework) (ti tf : String) (t : Tup) :
    is_lineage_source fw t.inst = specLineageSource fw t.inst ∧
    (is_lineage_source fw t.inst = true →
      processTuple fw ti tf t = ([mkRecord fw ti tf t], [])) := by
  constructor
  · unfold is_lineage_source specLineageSource
    by_cases h1 : t.inst ∈ fw.sources
    · simp [h1]
    · rw [if_neg h1]
      by_cases h2 : strStarts t.inst "SQ_" = true
      · simp [h1, h2]
      · have h2f : strStarts t.inst "SQ_" = false := Bool.eq_false_iff.mpr h2
        rw [if_neg (by rw [h2f]; exact Bool.false_ne_true)]
        by_cases h3 : (strContains t.inst "SEQ_" || strContains t.inst "Sequence") = true
        · rw [if_pos h3]
          rw [Bool.or_eq_true] at h3
          rcases h3 with h3 | h3 <;> simp [h1, h2f, h3]
        · rw [if_neg h3]
          rw [Bool.or_eq_true] at h3
          push_neg at h3
          have h3a : strContains t.inst "SEQ_" = false :=
            Bool.eq_false_iff.mpr h3.1
          have h3b : strContains t.inst "Sequence" = false :=
            Bool.eq_false_iff.mpr h3.2
          cases hli : fw.instances.lookup t.inst with
          | some ty =>
            by_cases h4 : (strContains ty "Source" || strContains ty "Sequence") = true
            · rw [if_pos h4]
              simp only [h1, h2f, h3a, h3b, hli, h4]
              simp
            · rw [if_neg (fun hc => h4 hc)]
              have h4f : (strContains ty "Source" || strContains ty "Sequence") = false :=
                Bool.eq_false_iff.mpr h4
              cases hlt : fw.transformations.lookup t.inst with
              | some tr =>
                by_cases h5 : tr.type = "Source Qualifier"
                · simp [h1, h2f, h3a, h3b, h4f, h5]
                · by_cases h6 : tr.type = "Sequence Generator"
                  · simp [h1, h2f, h3a, h3b, h4f, h5, h6]
                  · by_cases h7 : tr.type = "Expression"
                    · simp [h1, h2f, h3a, h3b, h4f, h5, h6, h7]
                    · simp [h1, h2f, h3a, h3b, h4f, h5, h6, h7]
              | none =>
                simp [h1, h2f, h3a, h3b, h4f]
          | none =>
            rw [if_neg (fun hc => Bool.false_ne_true hc)]
            cases hlt : fw.transformations.lookup t.inst with
            | some tr =>
              by_cases h5 : tr.type = "Source Qualifier"
              · simp [h1, h2f, h3a, h3b, h5]
              · by_cases h6 : tr.type = "Sequence Generator"
                · simp [h1, h2f, h3a, h3b, h5, h6]
                · by_cases h7 : tr.type = "Expression"
                  · simp [h1, h2f, h3a, h3b, h5, h6, h7]
                  · simp [h1, h2f, h3a, h3b, h5, h6, h7]
            | none =>
              simp [h1, h2f, h3a, h3b]
  · intro hs
    unfold processTuple
    rw [if_pos hs]

/-- Witness for C7 at the C4 scenario input: the declared source `S`
passes both tests, and its dequeued item emits one record and stops. -/
theorem C7_witness :
    is_lineage_source fwC4 "S" = specLineageSource fwC4 "S" ∧
    processTuple fwC4 "E" "B" ⟨"S", "B", ["E"], ["Type: Expression"], 1⟩
      = ([mkRecord fwC4 "E" "B" ⟨"S", "B", ["E"], ["Type: Expression"], 1⟩], []) :=
  ⟨(C7_source_test_and_emit fwC4 "E" "B"
      ⟨"S", "B", ["E"], ["Type: Expression"], 1⟩).1,
   (C7_source_test_and_emit fwC4 "E" "B"
      ⟨"S", "B", ["E"], ["Type: Expression"], 1⟩).2 (by decide)⟩

end Lineage

namespace Lineage

/-! ## C3: termination of `trace_lineage`

The fuel `traceFuel` suffices for every input: each processed queue item
consumes a fresh visited key drawn from the finite `keyUniv`, and each
processing step enqueues at most `stepBound` successors, so the loop
makes at most `|keyUniv| * (stepBound + 1) + 1` iterations. -/

theorem lookup_mem {α : Type} (l : List (String × α)) (k : String) (v : α)
    (h : l.lookup k = some v) : (k, v) ∈ l := by
  induction l with
  | nil => cases h
  | cons p t ih =>
    rcases p with ⟨a, b⟩
    by_cases hak : k = a
    · subst hak
      simp [List.lookup] at h
      subst h
      exact List.mem_cons_self _ _
    · have h2 : (k == a) = false := by simp [hak]
      simp only [List.lookup, h2] at h
      exact List.mem_cons_of_mem _ (ih h)

theorem mem_le_sum {α : Type} (l : List α) (f : α → Nat) {x : α} (h : x ∈ l) :
    f x ≤ (l.map f).sum := by
  induction l with
  | nil => cases h
  | cons y t ih =>
    rcases List.mem_cons.mp h with h1 | h1
    · subst h1
      simp only [List.map_cons, List.sum_cons]
      omega
    · have := ih h1
      simp only [List.map_cons, List.sum_cons]
      omega

theorem length_flatMap_le {α β : Type} (l : List α) (f : α → List β) (b : Nat)
    (h : ∀ x ∈ l, (f x).length ≤ b) : (l.flatMap f).length ≤ l.length * b := by
  induction l with
  | nil => simp
  | cons y t ih =>
    rw [List.flatMap_cons, List.length_append, List.length_cons]
    have h1 := h y (List.mem_cons_self _ _)
    have h2 := ih (fun x hx => h x (List.mem_cons_of_mem _ hx))
    have h3 : (t.length + 1) * b = t.length * b + b := by ring
    omega

/-- Work items whose instance, field, and depth stay inside the finite
universes. -/
def TupOK (fw : Framework) (ti tf : String) (maxDepth : Nat) (t : Tup) : Prop :=
  t.inst ∈ instUniv fw ti ∧ t.fld ∈ fldUniv fw tf ∧ t.depth ≤ maxDepth + 1

theorem ruleDirect_length (fw : Framework) (t : Tup) :
    (ruleDirect fw t).length ≤ fw.connections.length := by
  unfold ruleDirect
  rw [List.length_map]
  exact List.length_filter_le _ _

theorem ruleExprField_length (fw : Framework) (t : Tup) :
    (ruleExprField fw t).length ≤ totalFields fw := by
  unfold ruleExprField
  split
  next tr hlt =>
    split
    next =>
      rw [List.length_map]
      have h1 : (tr.fields.filter (fun f =>
          decide (f.expression ≠ "") && strContains f.expression t.fld)).length
          ≤ tr.fields.length := List.length_filter_le _ _
      have h2 : tr.fields.length ≤ totalFields fw :=
        mem_le_sum fw.transformations
          (fun p => p.2.fields.length) (lookup_mem _ _ _ hlt)
      omega
    next => simp
  next => simp

theorem ruleExprConn_length (fw : Framework) (t : Tup) :
    (ruleExprConn fw t).length ≤ fw.connections.length * totalFields fw := by
  unfold ruleExprConn
  apply length_flatMap_le
  intro conn _
  split
  next =>
    split
    next tr hlt =>
      split
      next =>
        rw [List.length_map]
        have h1 : (tr.fields.filter (fun f =>
            decide (f.name = t.fld) && decide (f.expression ≠ "") &&
            strContains f.expression conn.from_field)).length
            ≤ tr.fields.length := List.length_filter_le _ _
        have h2 : tr.fields.length ≤ totalFields fw :=
          mem_le_sum fw.transformations
            (fun p => p.2.fields.length) (lookup_mem _ _ _ hlt)
        omega
      next => simp
    next => simp
  next => simp

theorem processTuple_tups_length (fw : Framework) (ti tf : String) (t : Tup) :
    (processTuple fw ti tf t).2.length ≤ stepBound fw := by
  unfold processTuple stepBound
  split
  · simp
  · rw [List.length_append, List.length_append]
    have h1 := ruleDirect_length fw t
    have h2 := ruleExprField_length fw t
    have h3 := ruleExprConn_length fw t
    omega

theorem mem_fldUniv_of_field {fw : Framework} {tf : String}
    {name : String} {tr : Transformation} {f : TransformationField}
    (htr : (name, tr) ∈ fw.transformations) (hf : f ∈ tr.fields) :
    f.name ∈ fldUniv fw tf := by
  unfold fldUniv
  apply List.mem_cons_of_mem
  apply List.mem_append_right
  apply List.mem_flatMap.mpr
  exact ⟨(name, tr), htr, List.mem_map.mpr ⟨f, hf, rfl⟩⟩

theorem processTuple_tups_ok (fw : Framework) (ti tf : String)
    (maxDepth : Nat) (t : Tup) (ht : TupOK fw ti tf maxDepth t)
    (hd : t.depth ≤ maxDepth) :
    ∀ t2 ∈ (processTuple fw ti tf t).2, TupOK fw ti tf maxDepth t2 := by
  intro t2 ht2
  unfold processTuple at ht2
  split at ht2
  · cases ht2
  · rcases List.mem_append.mp ht2 with h1 | h1
    · rcases List.mem_append.mp h1 with h2 | h2
      · -- rule (a)
        unfold ruleDirect at h2
        rcases List.mem_map.mp h2 with ⟨c, hc, hce⟩
        have hcm : c ∈ fw.connections := (List.mem_filter.mp hc).1
        rw [← hce]
        refine ⟨?_, ?_, by show t.depth + 1 ≤ maxDepth + 1; omega⟩
        · exact List.mem_cons_of_mem _ (List.mem_map.mpr ⟨c, hcm, rfl⟩)
        · unfold fldUniv
          exact List.mem_cons_of_mem _
            (List.mem_append_left _ (List.mem_map.mpr ⟨c, hcm, rfl⟩))
      · -- rule (b)
        unfold ruleExprField at h2
        split at h2
        next tr hlt =>
          split at h2
          next =>
            rcases List.mem_map.mp h2 with ⟨f, hf, hfe⟩
            have hfm : f ∈ tr.fields := (List.mem_filter.mp hf).1
            rw [← hfe]
            exact ⟨ht.1, mem_fldUniv_of_field (lookup_mem _ _ _ hlt) hfm,
              by show t.depth + 1 ≤ maxDepth + 1; omega⟩
          next => cases h2
        next => cases h2
    · -- rule (c)
      unfold ruleExprConn at h1
      rcases List.mem_flatMap.mp h1 with ⟨conn, hconn, h2⟩
      split at h2
      next =>
        split at h2
        next tr hlt =>
          split at h2
          next =>
            rcases List.mem_map.mp h2 with ⟨f, _, hfe⟩
            rw [← hfe]
            refine ⟨?_, ?_, by show t.depth + 1 ≤ maxDepth + 1; omega⟩
            · exact List.mem_cons_of_mem _ (List.mem_map.mpr ⟨conn, hconn, rfl⟩)
            · unfold fldUniv
              exact List.mem_cons_of_mem _
                (List.mem_append_left _ (List.mem_map.mpr ⟨conn, hconn, rfl⟩))
          next => cases h2
        next => cases h2
      next => cases h2

theorem visitKey_mem_keyUniv {fw : Framework} {ti tf : String}
    {maxDepth : Nat} {t : Tup} (ht : TupOK fw ti tf maxDepth t) :
    visitKey t ∈ keyUniv fw ti tf maxDepth := by
  unfold keyUniv
  apply List.mem_flatMap.mpr
  refine ⟨t.inst, ht.1, ?_⟩
  apply List.mem_flatMap.mpr
  refine ⟨t.fld, ht.2.1, ?_⟩
  apply List.mem_map.mpr
  refine ⟨t.depth, List.mem_range.mpr (by have := ht.2.2; omega), rfl⟩

theorem traceAux_isSome (fw : Framework) (ti tf : String) (maxDepth : Nat) :
    ∀ (fuel : Nat) (queue : List Tup) (visited : List String)
      (acc : List LineageRecord),
    (∀ t ∈ queue, TupOK fw ti tf maxDepth t) →
    visited.Nodup →
    (∀ k ∈ visited, k ∈ keyUniv fw ti tf maxDepth) →
    ((keyUniv fw ti tf maxDepth).dedup.length - visited.length)
        * (stepBound fw + 1) + queue.length ≤ fuel →
    (traceAux fw ti tf maxDepth fuel queue visited acc).isSome := by
  intro fuel
  induction fuel with
  | zero =>
    intro queue visited acc _ _ _ hm
    cases queue with
    | nil => rfl
    | cons t rest =>
      exfalso
      rw [List.length_cons] at hm
      omega
  | succ fuel ih =>
    intro queue visited acc hq hvn hvk hm
    cases queue with
    | nil => rfl
    | cons t rest =>
      show (if t.depth > maxDepth then
          traceAux fw ti tf maxDepth fuel rest visited acc
        else if visitKey t ∈ visited then
          traceAux fw ti tf maxDepth fuel rest visited acc
        else
          traceAux fw ti tf maxDepth fuel
            (rest ++ (processTuple fw ti tf t).2)
            (visitKey t :: visited)
            (acc ++ (processTuple fw ti tf t).1)).isSome
      rw [List.length_cons] at hm
      by_cases hd : t.depth > maxDepth
      · rw [if_pos hd]
        apply ih rest visited acc
          (fun x hx => hq x (List.mem_cons_of_mem _ hx)) hvn hvk
        omega
      · rw [if_neg hd]
        by_cases hv : visitKey t ∈ visited
        · rw [if_pos hv]
          apply ih rest visited acc
            (fun x hx => hq x (List.mem_cons_of_mem _ hx)) hvn hvk
          omega
        · rw [if_neg hv]
          have htok := hq t (List.mem_cons_self _ _)
          have hkey : visitKey t ∈ keyUniv fw ti tf maxDepth :=
            visitKey_mem_keyUniv htok
          have hvn2 : (visitKey t :: visited).Nodup :=
            List.nodup_cons.mpr ⟨hv, hvn⟩
          have hvk2 : ∀ k ∈ visitKey t :: visited,
              k ∈ keyUniv fw ti tf maxDepth := by
            intro k hk
            rcases List.mem_cons.mp hk with h | h
            · subst h; exact hkey
            · exact hvk k h
          have hvK : visited.length + 1 ≤ (keyUniv fw ti tf maxDepth).dedup.length :=
            NewStyle.nodup_subset_length hvn2 hvk2
          apply ih _ _ _
            (by
              intro x hx
              rcases List.mem_append.mp hx with h | h
              · exact hq x (List.mem_cons_of_mem _ h)
              · exact processTuple_tups_ok fw ti tf maxDepth t htok
                  (by omega) x h)
            hvn2 hvk2
          rw [List.length_append, List.length_cons]
          have hB := processTuple_tups_length fw ti tf t
          have h1 : (keyUniv fw ti tf maxDepth).dedup.length - visited.length
              = ((keyUniv fw ti tf maxDepth).dedup.length - (visited.length + 1)) + 1 := by
            omega
          rw [h1] at hm
          have h2 : (((keyUniv fw ti tf maxDepth).dedup.length - (visited.length + 1)) + 1)
              * (stepBound fw + 1)
              = ((keyUniv fw ti tf maxDepth).dedup.length - (visited.length + 1))
                  * (stepBound fw + 1) + (stepBound fw + 1) := by
            ring
          rw [h2] at hm
          omega

/-- C3: `trace_lineage` terminates on every framework state, target pair
and depth bound, returning a list; the explicit fuel
`traceFuel = |keyUniv| * (stepBound + 1) + 1` — the depth-qualified
visited-key count times the per-step enqueue bound — is never
exhausted. -/
theorem C3_trace_lineage_terminates (fw : Framework)
    (target_instance target_field : String) (maxDepth : Nat) :
    (trace_lineage fw target_instance target_field maxDepth).isSome := by
  unfold trace_lineage
  apply traceAux_isSome
  · intro t ht
    rcases List.mem_singleton.mp ht with h
    subst h
    exact ⟨List.mem_cons_self _ _, List.mem_cons_self _ _, Nat.zero_le _⟩
  · exact List.nodup_nil
  · intro k hk
    cases hk
  · unfold traceFuel
    simp

end Lineage

namespace NewStyle

/-! ## C8: `_extract_logic_by_type`

The transformation dictionaries reaching `_extract_logic_by_type` are
parsed XML values: `None`, strings, lists, or string-keyed dicts
(`JVal`).  Python attribute and type errors raised by `.get`, `.lower`,
`.strip`, or iteration on an unsuitable value are modelled by
`Except PyErr`.  Python `str()` of a container, which never occurs in
the statements proved below (there the rendered values are strings), is
abbreviated to a constant marker. -/

inductive JVal where
  | null : JVal
  | str : String → JVal
  | arr : List JVal → JVal
  | obj : List (String × JVal) → JVal

inductive PyErr where
  | attributeError : PyErr
  | typeError : PyErr

/-- Python `d.get(k, dflt)`: key lookup with a default on a dict, an
`AttributeError` on any non-dict value. -/
def pyGet (d : JVal) (k : String) (dflt : JVal) : Except PyErr JVal :=
  match d with
  | JVal.obj kvs => Except.ok ((kvs.lookup k).getD dflt)
  | _ => Except.error PyErr.attributeError

/-- Python `d.get(k1, d.get(k2, ''))`, the repeated two-key lookup
idiom of `_extract_logic_by_type`. -/
def fieldGet2 (d : JVal) (k1 k2 : String) : Except PyErr JVal := do
  let dflt ← pyGet d k2 (JVal.str "")
  pyGet d k1 dflt

/-- Python iteration `for x in v`: lists yield elements, strings yield
one-character strings, dicts yield their keys, `None` raises
`TypeError`. -/
def pyIter : JVal → Except PyErr (List JVal)
  | JVal.arr xs => Except.ok xs
  | JVal.str s => Except.ok (s.data.map (fun c => JVal.str (String.mk [c])))
  | JVal.obj kvs => Except.ok (kvs.map (fun p => JVal.str p.1))
  | JVal.null => Except.error PyErr.typeError

/-- Python truthiness of a parsed XML value. -/
def pyTruthy : JVal → Bool
  | JVal.null => false
  | JVal.str s => !(s == "")
  | JVal.arr xs => !xs.isEmpty
  | JVal.obj kvs => !kvs.isEmpty

/-- Python `str(v)` as used inside the f-strings; container rendering is
abbreviated (it is never reached in the proved statements, where the
rendered values are strings). -/
def pyStr : JVal → String
  | JVal.null => "None"
  | JVal.str s => s
  | JVal.arr _ => "<list>"
  | JVal.obj _ => "<dict>"

/-- Python `v.strip()`: defined on strings, `AttributeError` otherwise. -/
def pyStripE : JVal → Except PyErr String
  | JVal.str s => Except.ok (strStrip s)
  | _ => Except.error PyErr.attributeError

/-- Python `v.lower()`: defined on strings, `AttributeError` otherwise. -/
def pyLowerE : JVal → Except PyErr String
  | JVal.str s => Except.ok (strLower s)
  | _ => Except.error PyErr.attributeError

/-- Python `v == 'YES'`: only a string value can compare equal. -/
def isYes : JVal → Bool
  | JVal.str s => s == "YES"
  | _ => false

/-- Python `if isinstance(v, dict): v = [v]`. -/
def wrapDict : JVal → JVal
  | JVal.obj kvs => JVal.arr [JVal.obj kvs]
  | v => v

/-- The metadata attribute names skipped in the TABLEATTRIBUTE loops. -/
def skipAttrs : List String :=
  ["version", "creation_date", "modified_date", "uuid", "description"]

/-- Loop body of the EXPRESSION branch. -/
def exprFieldStep (parts : List String) (field : JVal) :
    Except PyErr (List String) := do
  let field_name ← fieldGet2 field "@NAME" "NAME"
  let expression ← fieldGet2 field "@EXPRESSION" "EXPRESSION"
  if pyTruthy expression then do
    let s ← pyStripE expression
    if s ≠ "" then pure (parts ++ [pyStr field_name ++ " = " ++ pyStr expression])
    else pure parts
  else pure parts

/-- Loop body of the AGGREGATOR branch. -/
def aggStep (parts : List String) (field : JVal) :
    Except PyErr (List String) := do
  let field_name ← fieldGet2 field "@NAME" "NAME"
  let expression ← fieldGet2 field "@EXPRESSION" "EXPRESSION"
  let group_by ← fieldGet2 field "@GROUPBY" "GROUPBY"
  if isYes group_by then pure (parts ++ ["GROUP BY: " ++ pyStr field_name])
  else if pyTruthy expression then do
    let s ← pyStripE expression
    if s ≠ "" then pure (parts ++ [pyStr field_name ++ " = " ++ pyStr expression])
    else pure parts
  else pure parts

/-- Loop body of the SORTER branch. -/
def sorterStep (parts : List String) (field : JVal) :
    Except PyErr (List String) := do
  let field_name ← fieldGet2 field "@NAME" "NAME"
  let sort_key ← fieldGet2 field "@SORTKEY" "SORTKEY"
  if isYes sort_key then pure (parts ++ ["SORT BY: " ++ pyStr field_name])
  else pure parts

/-- Field-mapping loop body of the default branch. -/
def fieldNameStep (parts : List String) (field : JVal) :
    Except PyErr (List String) := do
  let field_name ← fieldGet2 field "@NAME" "NAME"
  if pyTruthy field_name then pure (parts ++ ["Field: " ++ pyStr field_name])
  else pure parts

/-- TABLEATTRIBUTE loop body shared by the SOURCE QUALIFIER and default
branches. -/
def attrStep (parts : List String) (attr : JVal) :
    Except PyErr (List String) := do
  let attr_name ← fieldGet2 attr "@NAME" "NAME"
  let attr_value ← fieldGet2 attr "@VALUE" "VALUE"
  if pyTruthy attr_name then
    if pyTruthy attr_value then do
      let sv ← pyStripE attr_value
      if strLen sv > 0 then do
        let low ← pyLowerE attr_name
        if !(skipAttrs.any (fun sk => strContains low sk)) then
          pure (parts ++ [pyStr attr_name ++ ": " ++ pyStr attr_value])
        else pure parts
      else pure parts
    else pure parts
  else pure parts

/-- FILTER-branch scan of TABLEATTRIBUTE for a filter condition, with the
`break` on the first truthy match; without a break the pre-loop (falsy)
condition value is kept. -/
def filterScan (fc0 : JVal) : List JVal → Except PyErr JVal
  | [] => Except.ok fc0
  | attr :: rest => do
    let attr_name ← fieldGet2 attr "@NAME" "NAME"
    if pyTruthy attr_name then do
      let low ← pyLowerE attr_name
      if strContains low "filter" then do
        let attr_value ← fieldGet2 attr "@VALUE" "VALUE"
        if pyTruthy attr_value then pure attr_value
        else filterScan fc0 rest
      else filterScan fc0 rest
    else filterScan fc0 rest

/-- The `logic_parts` accumulation of `_extract_logic_by_type`: the
type-dispatched branches, each `raise` modelled as an error value. -/
def logicPartsOf (transformation : JVal) (trans_type : String) :
    Except PyErr (List String) := do
  let tf0 ← pyGet transformation "TRANSFORMFIELD" (JVal.arr [])
  let transform_fields := wrapDict tf0
  if strUpper trans_type = "EXPRESSION" ∨
      strUpper trans_type = "EXPRESSION TRANSFORMATION" then do
    let fields ← pyIter transform_fields
    fields.foldlM exprFieldStep []
  else if strUpper trans_type = "FILTER" ∨
      strUpper trans_type = "FILTER TRANSFORMATION" then do
    let fc0 ← fieldGet2 transformation "@FILTERCONDITION" "FILTERCONDITION"
    let fc ←
      if pyTruthy fc0 then pure fc0
      else do
        let ta0 ← pyGet transformation "TABLEATTRIBUTE" (JVal.arr [])
        let attrs ← pyIter (wrapDict ta0)
        filterScan fc0 attrs
    if pyTruthy fc then pure ["Filter: " ++ pyStr fc] else pure []
  else if strUpper trans_type = "LOOKUP" ∨
      strUpper trans_type = "LOOKUP TRANSFORMATION" then do
    let lc ← fieldGet2 transformation "@CONDITION" "CONDITION"
    if pyTruthy lc then pure ["Lookup: " ++ pyStr lc] else pure []
  else if strUpper trans_type = "AGGREGATOR" ∨
      strUpper trans_type = "AGGREGATOR TRANSFORMATION" then do
    let fields ← pyIter transform_fields
    fields.foldlM aggStep []
  else if strUpper trans_type = "SORTER" ∨
      strUpper trans_type = "SORTER TRANSFORMATION" then do
    let fields ← pyIter transform_fields
    fields.foldlM sorterStep []
  else if strUpper trans_type = "SOURCE QUALIFIER" then do
    let ta0 ← pyGet transformation "TABLEATTRIBUTE" (JVal.arr [])
    let attrs ← pyIter (wrapDict ta0)
    attrs.foldlM attrStep []
  else do
    let fields ← pyIter transform_fields
    let parts1 ← fields.foldlM fieldNameStep []
    let ta0 ← pyGet transformation "TABLEATTRIBUTE" (JVal.arr [])
    let attrs ← pyIter (wrapDict ta0)
    attrs.foldlM attrStep parts1

/-- `_extract_logic_by_type`: join the parts, or the fallback string
`"<type> transformation"` when none were collected. -/
def extract_logic_by_type (transformation : JVal) (trans_type : String) :
    Except PyErr String := do
  let logic_parts ← logicPartsOf transformation trans_type
  if logic_parts.isEmpty then pure (trans_type ++ " transformation")
  else pure (String.intercalate "; " logic_parts)

end NewStyle

namespace NewStyle

/-- A string-valued leaf. -/
def isStrField : JVal → Bool
  | JVal.str _ => true
  | _ => false

/-- A well-formed field/attribute entry: a dict whose values are all
strings. -/
def fieldWF : JVal → Bool
  | JVal.obj kvs => kvs.all (fun p => isStrField p.2)
  | _ => false

/-- A well-formed TRANSFORMFIELD / TABLEATTRIBUTE value: a single
well-formed dict (later wrapped in a list) or a list of them. -/
def fieldsWF : JVal → Bool
  | JVal.arr xs => xs.all fieldWF
  | JVal.obj kvs => kvs.all (fun p => isStrField p.2)
  | _ => false

/-- A well-formed transformation dict: its TRANSFORMFIELD and
TABLEATTRIBUTE entries, when present, have well-formed shapes. -/
def transWF : JVal → Bool
  | JVal.obj kvs => kvs.all (fun p =>
      if p.1 = "TRANSFORMFIELD" ∨ p.1 = "TABLEATTRIBUTE" then fieldsWF p.2
      else true)
  | _ => false

theorem exbind_ok {α β : Type} (a : α) (f : α → Except PyErr β) :
    (Except.ok a >>= f) = f a := rfl

theorem expure_bind {α β : Type} (a : α) (f : α → Except PyErr β) :
    ((pure a : Except PyErr α) >>= f) = f a := rfl

theorem foldlM_ok {α : Type} (f : List String → α → Except PyErr (List String))
    (l : List α) (h : ∀ x ∈ l, ∀ acc, ∃ r, f acc x = Except.ok r) :
    ∀ acc, ∃ r, l.foldlM f acc = Except.ok r := by
  induction l with
  | nil => exact fun acc => ⟨acc, rfl⟩
  | cons y t ih =>
    intro acc
    obtain ⟨r, hr⟩ := h y (List.mem_cons_self _ _) acc
    obtain ⟨r2, hr2⟩ := ih (fun x hx acc2 => h x (List.mem_cons_of_mem _ hx) acc2) r
    refine ⟨r2, ?_⟩
    rw [List.foldlM_cons, hr, exbind_ok]
    exact hr2

theorem lookupD_str {kvs : List (String × JVal)}
    (h : kvs.all (fun p => isStrField p.2) = true) (k : String) {dv : JVal}
    (hd : ∃ d, dv = JVal.str d) :
    ∃ s, ((kvs.lookup k).getD dv) = JVal.str s := by
  cases hl : kvs.lookup k with
  | none =>
    obtain ⟨d, hdd⟩ := hd
    exact ⟨d, hdd⟩
  | some v =>
    have hv := List.all_eq_true.mp h _ (Lineage.lookup_mem _ _ _ hl)
    cases v with
    | str s => exact ⟨s, rfl⟩
    | null => simp [isStrField] at hv
    | arr xs => simp [isStrField] at hv
    | obj o => simp [isStrField] at hv

theorem fieldGet2_str {kvs : List (String × JVal)}
    (h : kvs.all (fun p => isStrField p.2) = true) (k1 k2 : String) :
    ∃ s, fieldGet2 (JVal.obj kvs) k1 k2 = Except.ok (JVal.str s) := by
  obtain ⟨s2, hs2⟩ := lookupD_str h k2 ⟨"", rfl⟩
  obtain ⟨s1, hs1⟩ := lookupD_str h k1 ⟨s2, hs2⟩
  exact ⟨s1, by
    show Except.ok ((kvs.lookup k1).getD ((kvs.lookup k2).getD (JVal.str ""))) =
      Except.ok (JVal.str s1)
    rw [hs1]⟩

theorem exprFieldStep_ok {field : JVal} (h : fieldWF field = true)
    (parts : List String) : ∃ r, exprFieldStep parts field = Except.ok r := by
  cases field with
  | null => simp [fieldWF] at h
  | str s => simp [fieldWF] at h
  | arr xs => simp [fieldWF] at h
  | obj kvs =>
    obtain ⟨n, hn⟩ := fieldGet2_str h "@NAME" "NAME"
    obtain ⟨e, he⟩ := fieldGet2_str h "@EXPRESSION" "EXPRESSION"
    simp only [exprFieldStep, hn, he, exbind_ok, pyStripE]
    split
    · split
      · exact ⟨_, rfl⟩
      · exact ⟨_, rfl⟩
    · exact ⟨_, rfl⟩

theorem aggStep_ok {field : JVal} (h : fieldWF field = true)
    (parts : List String) : ∃ r, aggStep parts field = Except.ok r := by
  cases field with
  | null => simp [fieldWF] at h
  | str s => simp [fieldWF] at h
  | arr xs => simp [fieldWF] at h
  | obj kvs =>
    obtain ⟨n, hn⟩ := fieldGet2_str h "@NAME" "NAME"
    obtain ⟨e, he⟩ := fieldGet2_str h "@EXPRESSION" "EXPRESSION"
    obtain ⟨g, hg⟩ := fieldGet2_str h "@GROUPBY" "GROUPBY"
    simp only [aggStep, hn, he, hg, exbind_ok, pyStripE]
    split
    · exact ⟨_, rfl⟩
    · split
      · split
        · exact ⟨_, rfl⟩
        · exact ⟨_, rfl⟩
      · exact ⟨_, rfl⟩

theorem sorterStep_ok {field : JVal} (h : fieldWF field = true)
    (parts : List String) : ∃ r, sorterStep parts field = Except.ok r := by
  cases field with
  | null => simp [fieldWF] at h
  | str s => simp [fieldWF] at h
  | arr xs => simp [fieldWF] at h
  | obj kvs =>
    obtain ⟨n, hn⟩ := fieldGet2_str h "@NAME" "NAME"
    obtain ⟨k, hk⟩ := fieldGet2_str h "@SORTKEY" "SORTKEY"
    simp only [sorterStep, hn, hk, exbind_ok]
    split
    · exact ⟨_, rfl⟩
    · exact ⟨_, rfl⟩

theorem fieldNameStep_ok {field : JVal} (h : fieldWF field = true)
    (parts : List String) : ∃ r, fieldNameStep parts field = Except.ok r := by
  cases field with
  | null => simp [fieldWF] at h
  | str s => simp [fieldWF] at h
  | arr xs => simp [fieldWF] at h
  | obj kvs =>
    obtain ⟨n, hn⟩ := fieldGet2_str h "@NAME" "NAME"
    simp only [fieldNameStep, hn, exbind_ok]
    split
    · exact ⟨_, rfl⟩
    · exact ⟨_, rfl⟩

theorem attrStep_ok {attr : JVal} (h : fieldWF attr = true)
    (parts : List String) : ∃ r, attrStep parts attr = Except.ok r := by
  cases attr with
  | null => simp [fieldWF] at h
  | str s => simp [fieldWF] at h
  | arr xs => simp [fieldWF] at h
  | obj kvs =>
    obtain ⟨n, hn⟩ := fieldGet2_str h "@NAME" "NAME"
    obtain ⟨v, hv⟩ := fieldGet2_str h "@VALUE" "VALUE"
    simp only [attrStep, hn, hv, exbind_ok, pyStripE, pyLowerE]
    split
    · split
      · split
        · split
          · exact ⟨_, rfl⟩
          · exact ⟨_, rfl⟩
        · exact ⟨_, rfl⟩
      · exact ⟨_, rfl⟩
    · exact ⟨_, rfl⟩

theorem filterScan_ok (fc0 : JVal) (l : List JVal)
    (h : ∀ x ∈ l, fieldWF x = true) :
    ∃ v, filterScan fc0 l = Except.ok v := by
  induction l with
  | nil => exact ⟨fc0, rfl⟩
  | cons a t ih =>
    obtain ⟨r, hr⟩ := ih (fun x hx => h x (List.mem_cons_of_mem _ hx))
    have ha := h a (List.mem_cons_self _ _)
    cases a with
    | null => simp [fieldWF] at ha
    | str s => simp [fieldWF] at ha
    | arr xs => simp [fieldWF] at ha
    | obj kvs =>
      obtain ⟨n, hn⟩ := fieldGet2_str ha "@NAME" "NAME"
      obtain ⟨v, hv⟩ := fieldGet2_str ha "@VALUE" "VALUE"
      simp only [filterScan, hn, hv, exbind_ok, pyLowerE]
      split
      · split
        · split
          · exact ⟨_, rfl⟩
          · exact ⟨r, hr⟩
        · exact ⟨r, hr⟩
      · exact ⟨r, hr⟩

theorem transWF_tf {kvs : List (String × JVal)} {k : String}
    (h : transWF (JVal.obj kvs) = true)
    (hk : k = "TRANSFORMFIELD" ∨ k = "TABLEATTRIBUTE") :
    fieldsWF ((kvs.lookup k).getD (JVal.arr [])) = true := by
  cases hl : kvs.lookup k with
  | none => rfl
  | some v =>
    have hall : kvs.all (fun p =>
        if p.1 = "TRANSFORMFIELD" ∨ p.1 = "TABLEATTRIBUTE" then fieldsWF p.2
        else true) = true := h
    have h2 := List.all_eq_true.mp hall _ (Lineage.lookup_mem _ _ _ hl)
    have h3 : (if k = "TRANSFORMFIELD" ∨ k = "TABLEATTRIBUTE" then fieldsWF v
        else true) = true := h2
    rw [if_pos hk] at h3
    exact h3

theorem wrap_iter_fields {v : JVal} (h : fieldsWF v = true) :
    ∃ xs, pyIter (wrapDict v) = Except.ok xs ∧ ∀ x ∈ xs, fieldWF x = true := by
  cases v with
  | null => simp [fieldsWF] at h
  | str s => simp [fieldsWF] at h
  | arr xs =>
    refine ⟨xs, rfl, ?_⟩
    intro x hx
    exact List.all_eq_true.mp h x hx
  | obj kvs =>
    refine ⟨[JVal.obj kvs], rfl, ?_⟩
    intro x hx
    rcases List.mem_singleton.mp hx with rfl
    exact h

end NewStyle

namespace NewStyle

theorem logicPartsOf_ok (t : JVal) (ty : String) (h : transWF t = true) :
    ∃ parts, logicPartsOf t ty = Except.ok parts := by
  cases t with
  | null => simp [transWF] at h
  | str s => simp [transWF] at h
  | arr xs => simp [transWF] at h
  | obj kvs =>
    have htf : fieldsWF ((kvs.lookup "TRANSFORMFIELD").getD (JVal.arr [])) = true :=
      transWF_tf h (Or.inl rfl)
    have hta : fieldsWF ((kvs.lookup "TABLEATTRIBUTE").getD (JVal.arr [])) = true :=
      transWF_tf h (Or.inr rfl)
    obtain ⟨fields, hfi, hfwf⟩ := wrap_iter_fields htf
    obtain ⟨attrs, hai, hawf⟩ := wrap_iter_fields hta
    obtain ⟨pe, hpe⟩ := foldlM_ok exprFieldStep fields
      (fun x hx acc => exprFieldStep_ok (hfwf x hx) acc) []
    obtain ⟨pa, hpa⟩ := foldlM_ok aggStep fields
      (fun x hx acc => aggStep_ok (hfwf x hx) acc) []
    obtain ⟨ps, hps⟩ := foldlM_ok sorterStep fields
      (fun x hx acc => sorterStep_ok (hfwf x hx) acc) []
    obtain ⟨pf, hpf⟩ := foldlM_ok fieldNameStep fields
      (fun x hx acc => fieldNameStep_ok (hfwf x hx) acc) []
    obtain ⟨pq, hpq⟩ := foldlM_ok attrStep attrs
      (fun x hx acc => attrStep_ok (hawf x hx) acc) []
    obtain ⟨pd, hpd⟩ := foldlM_ok attrStep attrs
      (fun x hx acc => attrStep_ok (hawf x hx) acc) pf
    obtain ⟨fsv, hfsv⟩ := filterScan_ok ((kvs.lookup "@FILTERCONDITION").getD
      ((kvs.lookup "FILTERCONDITION").getD (JVal.str ""))) attrs hawf
    simp only [logicPartsOf, fieldGet2, pyGet, exbind_ok, expure_bind,
      hfi, hai, hpe, hpa, hps, hpf, hpq, hpd, hfsv]
    split
    · exact ⟨pe, rfl⟩
    · split
      · split
        · exact ⟨_, rfl⟩
        · split
          · exact ⟨_, rfl⟩
          · exact ⟨_, rfl⟩
      · split
        · split
          · exact ⟨_, rfl⟩
          · exact ⟨_, rfl⟩
        · split
          · exact ⟨pa, rfl⟩
          · split
            · exact ⟨ps, rfl⟩
            · split
              · exact ⟨pq, rfl⟩
              · exact ⟨pd, rfl⟩

end NewStyle

namespace NewStyle

/-- C8 (counterexample): `_extract_logic_by_type` does NOT degrade every
malformed attribute shape to the fallback string — on a transformation
whose `TRANSFORMFIELD` is a plain string (so the isinstance-dict wrap
does not fire and the loop iterates over characters), the EXPRESSION
branch calls `.get` on a string and an `AttributeError` escapes. -/
theorem C8_counterexample :
    extract_logic_by_type (JVal.obj [("TRANSFORMFIELD", JVal.str "x")])
      "Expression" = Except.error PyErr.attributeError := rfl

/-- C8 (amended): for transformations whose TRANSFORMFIELD and
TABLEATTRIBUTE entries are well-formed (a string-valued dict, or a list
of such dicts), the extractor lets no exception escape: it returns a
string for every transformation type, and when the collected
`logic_parts` list is empty that string is exactly
`trans_type ++ " transformation"`, otherwise the `"; "`-join of the
parts. -/
theorem C8_amended_total_and_fallback (t : JVal) (ty : String)
    (h : transWF t = true) :
    ∃ parts, logicPartsOf t ty = Except.ok parts ∧
      extract_logic_by_type t ty =
        Except.ok (if parts.isEmpty then ty ++ " transformation"
          else String.intercalate "; " parts) := by
  obtain ⟨parts, hp⟩ := logicPartsOf_ok t ty h
  refine ⟨parts, hp, ?_⟩
  simp only [extract_logic_by_type, hp, exbind_ok]
  split
  · rfl
  · rfl

/-- Witness: the C8 amended theorem applied to the empty transformation
dict (well-formed) with type `"Lookup"`. -/
theorem C8_amended_witness :
    transWF (JVal.obj []) = true ∧
    (∃ parts, logicPartsOf (JVal.obj []) "Lookup" = Except.ok parts ∧
      extract_logic_by_type (JVal.obj []) "Lookup" =
        Except.ok (if parts.isEmpty then "Lookup" ++ " transformation"
          else String.intercalate "; " parts)) :=
  ⟨rfl, C8_amended_total_and_fallback (JVal.obj []) "Lookup" rfl⟩

end NewStyle
